import Mathlib

/-!
# Verification of the ran-box block-deduplication pipeline

A shallow embedding of the core of the ran-box file-storage service:
the block pipeline (`backend/internal/block/processor.go`, both the
streaming and the batch variant), the block and file repositories
(`backend/internal/repository/blocks.go`, `files.go`), and the upload,
download and delete handlers (`handler/file_upload.go` and the
`DownloadHandler`).

Bytes are lists of naturals; machine `int64` ids are naturals (the ids
are database serials, always small and positive); the SHA-256 digest is
an abstract function parameter `hashFn`, assumed injective where a
theorem needs collision freedom.  Concurrency is serialised: the worker
pool is run under the deterministic schedule in which block `i` is fully
processed before block `i+1` is read; completion-order independence of
the gather step is proved separately over arbitrary permutations of the
result list.  Database and S3 transport failures are injected through a
deterministic oracle (`Env`), keyed by digest or id.
-/

namespace RanBox

/-- Bytes (file contents, block data, object-store keys and values) are lists of
naturals. -/
abbrev Bytes := List Nat

/-- How an input stream behaves once its deliverable bytes are exhausted: a clean
end of stream, or a transport error surfaced by the reader. -/
inductive StreamEnd where
  | eof : StreamEnd
  | fail : String → StreamEnd
deriving DecidableEq

/-- An input byte stream: the bytes it can deliver, and how it ends. -/
structure ByteStream where
  data : Bytes
  ending : StreamEnd
deriving DecidableEq

/-- A row of the `blocks` table (migration `002_create_blocks.up.sql`):
id (BIGSERIAL), sha256_hash (UNIQUE), s3_key, size_bytes, ref_count. -/
structure BlockRow where
  id : Nat
  sha256Hash : Bytes
  s3Key : Bytes
  sizeBytes : Nat
  refCount : Int
deriving DecidableEq

/-- A row of the `files` table (the attributes the claims need). -/
structure FileRow where
  id : Nat
  userId : Nat
  name : String
  mimeType : String
  totalSize : Nat
deriving DecidableEq

/-- A row of the `file_blocks` table: (file_id, block_id, block_index). -/
structure FileBlockRow where
  fileId : Nat
  blockId : Nat
  blockIndex : Nat
deriving DecidableEq

/-- Combined state of the metadata store (PostgreSQL tables) and of the object
store (S3).  The object store is an association list from key to bytes. -/
structure Store where
  blocks : List BlockRow
  nextBlockId : Nat
  objects : List (Bytes × Bytes)
  files : List FileRow
  nextFileId : Nat
  fileBlocks : List FileBlockRow
deriving DecidableEq

/-- Deterministic transport-failure oracle: whether each DB/S3 call fails, keyed
by the digest or id it is called with.  "Identical metadata/object-store
behaviour" for two pipeline runs means running them against the same `Env`. -/
structure Env where
  findFail : Bytes → Bool
  incFail : Nat → Bool
  putFail : Bytes → Bool
  createFail : Bytes → Bool

/-- The oracle under which no transport failure occurs. -/
def noFailEnv : Env :=
  ⟨fun _ => false, fun _ => false, fun _ => false, fun _ => false⟩

/-- Object-store lookup (S3 GetObject; `none` models NoSuchKey). -/
def lookupObj : List (Bytes × Bytes) → Bytes → Option Bytes
  | [], _ => none
  | (k, v) :: rest, key => if k = key then some v else lookupObj rest key

/-- Object-store write (S3 PutObject is an idempotent overwrite). -/
def insertObj : List (Bytes × Bytes) → Bytes → Bytes → List (Bytes × Bytes)
  | [], k, v => [(k, v)]
  | (k', v') :: rest, k, v =>
    if k' = k then (k, v) :: rest else (k', v') :: insertObj rest k v

/-- `blockJob` from processor.go: a block's read index, its bytes, and its
hex-encoded SHA-256 digest computed at read time. -/
structure blockJob where
  index : Nat
  data : Bytes
  hash : Bytes
deriving DecidableEq

/-- `BlockRepository.FindByHash`: the row whose `sha256_hash` equals the digest,
or `none` (the Go method returns `nil, nil` on `pgx.ErrNoRows`). -/
def FindByHash (st : Store) (h : Bytes) : Option BlockRow :=
  st.blocks.find? (fun r => r.sha256Hash == h)

/-- `BlockRepository.IncrementRefCount`:
`UPDATE blocks SET ref_count = ref_count + 1 WHERE id = $1`. -/
def IncrementRefCount (st : Store) (bid : Nat) : Store :=
  { st with
    blocks := st.blocks.map (fun r =>
      if r.id = bid then { r with refCount := r.refCount + 1 } else r) }

/-- `BlockRepository.Create`: `INSERT INTO blocks ... ref_count = 1`.  The insert
fails on the UNIQUE constraint of `sha256_hash` (load-bearing for the
concurrent-insert race of spec §5) or on an injected transport failure. -/
def BlockCreate (env : Env) (st : Store) (h key : Bytes) (size : Nat) :
    Except String (BlockRow × Store) :=
  if env.createFail h then
    .error "BlockRepository.Create: transport failure"
  else if st.blocks.any (fun r => r.sha256Hash == h) then
    .error "BlockRepository.Create: duplicate key value violates unique constraint"
  else
    let row : BlockRow := ⟨st.nextBlockId, h, key, size, 1⟩
    .ok (row, { st with blocks := st.blocks ++ [row], nextBlockId := st.nextBlockId + 1 })

/-- `S3Client.PutObject` under a key. -/
def PutObject (st : Store) (key data : Bytes) : Store :=
  { st with objects := insertObj st.objects key data }

/-- The tail of `Processor.processBlock` after `FindByHash` returned `nil`
(dedup miss): upload the bytes to S3 under key = digest, then insert the block
row, propagating a `Create` error.  Taking the store at this point as a
parameter lets the concurrent-insert race of spec §5 be expressed: another
worker may have created the same digest between the lookup and the insert. -/
def processBlockMiss (env : Env) (st : Store) (job : blockJob) :
    Except String Nat × Store :=
  if env.putFail job.hash then
    (.error "processBlock PutObject: transport failure", st)
  else
    let st1 := PutObject st job.hash job.data
    match BlockCreate env st1 job.hash job.hash job.data.length with
    | .error e => (.error ("processBlock Create block record: " ++ e), st1)
    | .ok (row, st2) => (.ok row.id, st2)

/-- `Processor.processBlock`: dedup lookup, then either `IncrementRefCount`
(hit) or S3 upload + `Create` (miss).  The store is returned alongside the
result because a failed call may already have performed side effects. -/
def processBlock (env : Env) (st : Store) (job : blockJob) :
    Except String Nat × Store :=
  if env.findFail job.hash then
    (.error "processBlock FindByHash: transport failure", st)
  else
    match FindByHash st job.hash with
    | some existing =>
      if env.incFail existing.id then
        (.error "BlockRepository.IncrementRefCount: transport failure", st)
      else
        (.ok existing.id, IncrementRefCount st existing.id)
    | none => processBlockMiss env st job

/-- Splitting a byte list into blockSize-sized chunks, as the `io.ReadFull`
loops of both Process variants do: full chunks of exactly `S` bytes, a final
short chunk of `1 ≤ n < S` bytes when the length is not a multiple of `S`, and
no chunk at all on a zero-length boundary.  (For `S = 0` the Go loop would not
terminate; the configured block size is at least 1 MiB, and every theorem
assumes `0 < S`.) -/
def chunksOf (S : Nat) (l : Bytes) : List Bytes :=
  if h : S = 0 ∨ l = [] then [] else l.take S :: chunksOf S (l.drop S)
termination_by l.length
decreasing_by
  rcases not_or.mp h with ⟨hS, hl⟩
  have h1 : 0 < l.length := List.length_pos.mpr hl
  have h2 : 0 < S := Nat.pos_of_ne_zero hS
  simp only [List.length_drop]
  omega

/-- The reader gives each chunk a monotonically increasing index starting at 0
and hashes it into a `blockJob`. -/
def mkJobs (hashFn : Bytes → Bytes) : Nat → List Bytes → List blockJob
  | _, [] => []
  | i, c :: rest => ⟨i, c, hashFn c⟩ :: mkJobs hashFn (i + 1) rest

/-- Worker error message of both collectors in processor.go. -/
def workerErrMsg (idx : Nat) (e : String) : String :=
  "worker error at block " ++ Nat.repr idx ++ ": " ++ e

/-- Reader error message (both variants wrap the underlying read error as
"splitStream read error"). -/
def readErrMsg (m : String) : String :=
  "splitStream read error: " ++ m

/-- Outcome of the streaming reader+worker loop: the `(index, blockId)` results
in index order or the first worker error; the store after the performed side
effects; the reader's error, if any; and the total bytes read. -/
structure StreamOut where
  res : Except String (List (Nat × Nat))
  store : Store
  readErr : Option String
  total : Nat

/-- The streaming Process variant's reader and worker pool, serialised: read a
full `S`-byte chunk, process it, continue; fewer than `S` remaining bytes form
a final short block (none on a zero-length boundary), and a reader transport
failure after a partial fill still submits the partial block, as `io.ReadFull`
returns the bytes it read together with the error. -/
def streamLoop (env : Env) (hashFn : Bytes → Bytes) (S : Nat) (st : Store)
    (idx : Nat) (data : Bytes) (ending : StreamEnd) : StreamOut :=
  if hfull : 0 < S ∧ S ≤ data.length then
    let chunk := data.take S
    match processBlock env st ⟨idx, chunk, hashFn chunk⟩ with
    | (.error e, st') => ⟨.error (workerErrMsg idx e), st', none, S⟩
    | (.ok bid, st') =>
      let out := streamLoop env hashFn S st' (idx + 1) (data.drop S) ending
      ⟨out.res.map (fun rs => (idx, bid) :: rs), out.store, out.readErr, S + out.total⟩
  else
    match data, ending with
    | [], .eof => ⟨.ok [], st, none, 0⟩
    | [], .fail m => ⟨.ok [], st, some (readErrMsg m), 0⟩
    | d, e =>
      match processBlock env st ⟨idx, d, hashFn d⟩ with
      | (.error er, st') => ⟨.error (workerErrMsg idx er), st', none, d.length⟩
      | (.ok bid, st') =>
        ⟨.ok [(idx, bid)], st',
          match e with | .eof => none | .fail m => some (readErrMsg m), d.length⟩
termination_by data.length
decreasing_by
  simp only [List.length_drop]
  omega

/-- The coordinator's ordered-array assembly, common to both Process variants:
`ordered := make([]int64, len(results))`, then `ordered[res.index] = res.blockID`
for each result in arrival order.  (`List.set` ignores an out-of-range index;
the pipeline only produces indices below the result count.) -/
def gatherBlockIds (results : List (Nat × Nat)) : List Nat :=
  results.foldl (fun acc r => acc.set r.1 r.2) (List.replicate results.length 0)

/-- The streaming `Processor.Process` (processor.go lines 53–123): interleaved
read/process loop; the collector returns the first worker error, else the
reader error, else the ordered block-id array and the total bytes read. -/
def ProcessStreamingM (env : Env) (hashFn : Bytes → Bytes) (S : Nat)
    (st : Store) (bs : ByteStream) : Except String (List Nat × Nat) × Store :=
  let out := streamLoop env hashFn S st 0 bs.data bs.ending
  match out.res with
  | .error e => (.error e, out.store)
  | .ok results =>
    match out.readErr with
    | some m => (.error m, out.store)
    | none => (.ok (gatherBlockIds results, out.total), out.store)

/-- Total of the chunk lengths, as `splitStream` accumulates `totalBytes`. -/
def sumLens (cs : List Bytes) : Nat := (cs.map List.length).sum

/-- `Processor.splitStream`: materialise all jobs up front; a reader transport
failure discards the jobs and returns only the error. -/
def splitStreamM (hashFn : Bytes → Bytes) (S : Nat) (bs : ByteStream) :
    Except String (List blockJob × Nat) :=
  match bs.ending with
  | .fail m => .error (readErrMsg m)
  | .eof => .ok (mkJobs hashFn 0 (chunksOf S bs.data), sumLens (chunksOf S bs.data))

/-- `Processor.runWorkers`, serialised: process the materialised jobs in order,
fail-fast on the first worker error. -/
def runWorkersM (env : Env) : Store → List blockJob →
    Except String (List (Nat × Nat)) × Store
  | st, [] => (.ok [], st)
  | st, job :: rest =>
    match processBlock env st job with
    | (.error e, st') => (.error (workerErrMsg job.index e), st')
    | (.ok bid, st') =>
      match runWorkersM env st' rest with
      | (res, st'') => (res.map (fun rs => (job.index, bid) :: rs), st'')

/-- The batch `Processor.Process` (processor.go lines 242–262): splitStream,
then runWorkers, then the ordered array. -/
def ProcessBatchM (env : Env) (hashFn : Bytes → Bytes) (S : Nat)
    (st : Store) (bs : ByteStream) : Except String (List Nat × Nat) × Store :=
  match splitStreamM hashFn S bs with
  | .error e => (.error ("Processor.splitStream: " ++ e), st)
  | .ok (jobs, total) =>
    match runWorkersM env st jobs with
    | (.error e, st') => (.error e, st')
    | (.ok results, st') => (.ok (gatherBlockIds results, total), st')

/-- `BlockRepository.FindByIDs`: rows are fetched into a map keyed by id and
then emitted once per requested id, preserving request order and duplicates;
absent ids are dropped. -/
def FindByIDs (st : Store) (ids : List Nat) : List BlockRow :=
  ids.filterMap (fun bid => st.blocks.find? (fun r => r.id == bid))

/-- `block.BlocksToStream`: fetch each block's object in order and forward the
bytes to the writer; a missing object aborts the stream. -/
def BlocksToStream (objects : List (Bytes × Bytes)) : List BlockRow → Except String Bytes
  | [] => .ok []
  | b :: rest =>
    match lookupObj objects b.s3Key with
    | none => .error "BlocksToStream GetObject: NoSuchKey"
    | some bytes =>
      match BlocksToStream objects rest with
      | .error e => .error e
      | .ok tail => .ok (bytes ++ tail)

/-- Stable insertion of a file_blocks row into a list sorted by block_index. -/
def insertByIndex (fb : FileBlockRow) : List FileBlockRow → List FileBlockRow
  | [] => [fb]
  | x :: xs =>
    if fb.blockIndex ≤ x.blockIndex then fb :: x :: xs else x :: insertByIndex fb xs

/-- Sorting by block_index (the SQL `ORDER BY block_index ASC`), modelled as a
stable insertion sort. -/
def sortByIndex : List FileBlockRow → List FileBlockRow
  | [] => []
  | x :: xs => insertByIndex x (sortByIndex xs)

/-- `FileRepository.GetBlockIDs`:
`SELECT block_id FROM file_blocks WHERE file_id = $1 ORDER BY block_index ASC`. -/
def GetBlockIDs (st : Store) (fid : Nat) : List Nat :=
  (sortByIndex (st.fileBlocks.filter (fun fb => fb.fileId == fid))).map (·.blockId)

/-- `FileRepository.FindByIDAndUserID`: the ownership check,
`WHERE id = $1 AND user_id = $2` (`none` covers both a missing id and a
mismatched owner, which the query cannot distinguish). -/
def FindByIDAndUserID (st : Store) (fid uid : Nat) : Option FileRow :=
  st.files.find? (fun f => f.id == fid && f.userId == uid)

/-- `FileRepository.Create`: insert the File row. -/
def FileCreate (st : Store) (uid : Nat) (name mime : String) (size : Nat) :
    FileRow × Store :=
  let f : FileRow := ⟨st.nextFileId, uid, name, mime, size⟩
  (f, { st with files := st.files ++ [f], nextFileId := st.nextFileId + 1 })

/-- The rows inserted by `FileRepository.LinkBlocks`' loop:
`INSERT INTO file_blocks (file_id, block_id, block_index) VALUES ($1, $2, i)`
for each block id with its position. -/
def linkRows (fid : Nat) : Nat → List Nat → List FileBlockRow
  | _, [] => []
  | i, bid :: rest => ⟨fid, bid, i⟩ :: linkRows fid (i + 1) rest

/-- `FileRepository.LinkBlocks`. -/
def LinkBlocks (st : Store) (fid : Nat) (ids : List Nat) : Store :=
  { st with fileBlocks := st.fileBlocks ++ linkRows fid 0 ids }

/-- `UploadHandler.Upload` from the pipeline call onward (the multipart parsing
and auth steps precede it): a pipeline error answers 500/upload_failed before
any File row is created; otherwise the File row is created and the blocks are
linked in order. -/
def uploadHandler (env : Env) (hashFn : Bytes → Bytes) (S : Nat) (st : Store)
    (uid : Nat) (name mime : String) (bs : ByteStream) : (Nat × String) × Store :=
  match ProcessStreamingM env hashFn S st bs with
  | (.error _, st1) => ((500, "upload_failed"), st1)
  | (.ok (ids, total), st1) =>
    let (f, st2) := FileCreate st1 uid name mime total
    let st3 := LinkBlocks st2 f.id ids
    ((201, "created"), st3)

/-- Response of the download endpoint: an error envelope, a streamed file, or a
connection aborted mid-stream after the headers went out. -/
inductive HttpOut where
  | errJson (status : Nat) (kind msg : String) : HttpOut
  | fileStream (mime disposition : String) (contentLength : Nat) (body : Bytes) : HttpOut
  | aborted (mime disposition : String) (contentLength : Nat) : HttpOut
deriving DecidableEq

/-- `DownloadHandler.Download` from the authorization check onward: a failed
ownership lookup answers 403/forbidden; otherwise the ordered blocks are
resolved and streamed. -/
def downloadHandler (st : Store) (fid uid : Nat) (preview : Bool) : HttpOut :=
  match FindByIDAndUserID st fid uid with
  | none => .errJson 403 "forbidden" "you do not have access to this file"
  | some file =>
    let blockIDs := GetBlockIDs st file.id
    let blocks := FindByIDs st blockIDs
    let mime := if file.mimeType = "" then "application/octet-stream" else file.mimeType
    let disp := if preview then "inline" else "attachment"
    match BlocksToStream st.objects blocks with
    | .error _ => .aborted mime disp file.totalSize
    | .ok body => .fileStream mime disp file.totalSize body

/-- Response of the file-info endpoint. -/
inductive InfoOut where
  | err (status : Nat) (kind msg : String) : InfoOut
  | ok (file : FileRow) : InfoOut
deriving DecidableEq

/-- `UploadHandler.FileInfo` from the authorization check onward. -/
def fileInfoHandler (st : Store) (fid uid : Nat) : InfoOut :=
  match FindByIDAndUserID st fid uid with
  | none => .err 403 "forbidden" "file not found or unauthorized"
  | some f => .ok f

/-- `FileRepository.Delete`: `DELETE FROM files WHERE id = $1 AND user_id = $2`,
reporting whether any row was removed (the Go method errs on RowsAffected = 0);
removing the File row cascades its file_blocks rows. -/
def FileDelete (st : Store) (fid uid : Nat) : Bool × Store :=
  if st.files.any (fun f => f.id == fid && f.userId == uid) then
    (true, { st with
      files := st.files.filter (fun f => !(f.id == fid && f.userId == uid)),
      fileBlocks := st.fileBlocks.filter (fun fb => !(fb.fileId == fid)) })
  else
    (false, st)

/-- `BlockRepository.DecrementRefCount`:
`UPDATE blocks SET ref_count = ref_count - 1 WHERE id = $1 RETURNING ref_count`;
`none` models the error when no row matches. -/
def DecrementRefCount (st : Store) (bid : Nat) : Option Int × Store :=
  match st.blocks.find? (fun r => r.id == bid) with
  | none => (none, st)
  | some r =>
    (some (r.refCount - 1),
     { st with blocks := st.blocks.map (fun q =>
         if q.id = bid then { q with refCount := q.refCount - 1 } else q) })

/-- `BlockRepository.Delete` (idempotent row delete). -/
def BlockRowDelete (st : Store) (bid : Nat) : Store :=
  { st with blocks := st.blocks.filter (fun r => !(r.id == bid)) }

/-- `S3Client.DeleteObject` (idempotent). -/
def DeleteObject (st : Store) (key : Bytes) : Store :=
  { st with objects := st.objects.filter (fun kv => !(kv.1 == key)) }

/-- `DeleteFile`'s reclamation loop with no transport failures, acting on the
store: decrement each listed block's ref count and, when the returned count is
≤ 0, delete the S3 object and then the block row. -/
def reclaimPure : Store → List BlockRow → Store
  | st, [] => st
  | st, b :: rest =>
    match DecrementRefCount st b.id with
    | (none, st1) => reclaimPure st1 rest
    | (some n, st1) =>
      if n ≤ 0 then reclaimPure (BlockRowDelete (DeleteObject st1 b.s3Key) b.id) rest
      else reclaimPure st1 rest

/-- `DownloadHandler.DeleteFile` with no transport failures, acting on the
store: snapshot the file's block ids, delete the File row (403 when it removes
zero rows, before any reclamation), then reclaim. -/
def deleteFilePure (st : Store) (fid uid : Nat) : Nat × Store :=
  let ids := GetBlockIDs st fid
  match FileDelete st fid uid with
  | (false, st1) => (403, st1)
  | (true, st1) => (204, reclaimPure st1 (FindByIDs st1 ids))

/-- Reclamation events emitted by `DeleteFile`'s per-block loop. -/
inductive Event where
  | decRef (blockId : Nat) (result : Option Int) : Event
  | s3Delete (key : Bytes) (ok : Bool) : Event
  | rowDelete (blockId : Nat) (ok : Bool) : Event
deriving DecidableEq

/-- Failure oracle for the delete handler's repository and S3 calls. -/
structure DelEnv where
  getBlockIds : Nat → Option (List Nat)
  fileDeleteOk : Bool
  findByIds : List Nat → Option (List BlockRow)
  decRef : Nat → Option Int
  s3Delete : Bytes → Bool
  rowDelete : Nat → Bool

/-- The body of `DeleteFile`'s reclamation loop for one block: call
`DecrementRefCount` (a failure skips the block via `continue`); when the
returned count is ≤ 0, delete the S3 object and then the block row, logging but
ignoring either failure. -/
def reclaimBlockEvents (env : DelEnv) (b : BlockRow) : List Event :=
  match env.decRef b.id with
  | none => [.decRef b.id none]
  | some n =>
    if n ≤ 0 then
      [.decRef b.id (some n), .s3Delete b.s3Key (env.s3Delete b.s3Key),
       .rowDelete b.id (env.rowDelete b.id)]
    else
      [.decRef b.id (some n)]

/-- `DownloadHandler.DeleteFile` against the failure oracle, from the id parse
onward: snapshot the block ids (500/db_error when the query fails), delete the
File row (403/forbidden when it removes zero rows — before the reclamation
loop), fetch the snapshot's rows (a failure skips the whole loop), then run the
reclamation loop, whose errors never change the response.  Returns the HTTP
status and the emitted reclamation events. -/
def deleteFileHandler (env : DelEnv) (fid : Nat) : Nat × List Event :=
  match env.getBlockIds fid with
  | none => (500, [])
  | some ids =>
    if !env.fileDeleteOk then (403, [])
    else
      match env.findByIds ids with
      | none => (204, [])
      | some blocks => (204, (blocks.map (reclaimBlockEvents env)).flatten)

/-- Number of file_blocks rows referencing a block id. -/
def fbCount (st : Store) (bid : Nat) : Nat :=
  (st.fileBlocks.filter (fun fb => fb.blockId == bid)).length

/-- Total ref_count over the rows carrying a given id (in a well-formed store
the id is unique, so this is that row's ref_count, and 0 for an absent id). -/
def refCountOf (st : Store) (bid : Nat) : Int :=
  ((st.blocks.filter (fun r => r.id == bid)).map (·.refCount)).sum

/-- Structural well-formedness maintained by the code: block ids are unique and
below the serial counter, and digests are unique (the UNIQUE constraint of
migration 002). -/
def WF (st : Store) : Prop :=
  (∀ r ∈ st.blocks, r.id < st.nextBlockId) ∧
  (st.blocks.map (·.id)).Nodup ∧
  (st.blocks.map (·.sha256Hash)).Nodup

/-- Content invariant (spec §3, invariants 2 and 4): each block row's S3 key
equals its digest, and the object store holds bytes under that key whose digest
is the row's digest. -/
def CInv (hashFn : Bytes → Bytes) (st : Store) : Prop :=
  ∀ r ∈ st.blocks, r.s3Key = r.sha256Hash ∧
    ∃ bs, lookupObj st.objects r.s3Key = some bs ∧ hashFn bs = r.sha256Hash

/-- Reference-count invariant (spec §3, invariant 1): every block row's
ref_count equals the number of file_blocks rows referencing it. -/
def RefInv (st : Store) : Prop :=
  ∀ r ∈ st.blocks, r.refCount = (fbCount st r.id : Int)

/-- A file with this id owned by this user exists. -/
def ownedBy (st : Store) (fid uid : Nat) : Prop :=
  ∃ f ∈ st.files, f.id = fid ∧ f.userId = uid

/-- The files a user's listing endpoints can show. -/
def visibleFiles (st : Store) (uid : Nat) : List FileRow :=
  st.files.filter (fun f => f.userId == uid)

/-!
Concrete stores and failure environments used by the witnesses.
-/

/-- An empty store, before any block exists. -/
def raceStore0 : Store := ⟨[], 1, [], [], 1, []⟩

/-- The store after worker A won the create for digest `[7]`: one block row
with ref_count 1, and the object stored under its digest key. -/
def raceStore1 : Store := ⟨[⟨1, [7], [7], 1, 1⟩], 2, [([7], [7])], [], 1, []⟩

/-- A concrete delete environment for the C6 witness: two snapshotted blocks,
the first reaching count 0 (with a failing S3 delete), the second staying
positive. -/
def delEnvW : DelEnv :=
  ⟨fun _ => some [1, 2], true,
   fun _ => some [⟨1, [5], [5], 4, 1⟩, ⟨2, [6], [6], 4, 3⟩],
   fun bid => if bid = 1 then some 0 else some 2,
   fun _ => false, fun _ => true⟩

/-- A delete environment whose File-row delete matches no row. -/
def delEnvW2 : DelEnv :=
  ⟨fun _ => some [1, 2], false,
   fun _ => some [⟨1, [5], [5], 4, 1⟩],
   fun _ => some 0, fun _ => true, fun _ => true⟩

/-- A store with one file owned by user 1 for the C8 witness. -/
def isoStore : Store :=
  ⟨[⟨1, [3], [3], 1, 1⟩], 2, [([3], [9])], [⟨5, 1, "a.txt", "text/plain", 1⟩], 6,
    [⟨5, 1, 0⟩]⟩

/-- An environment whose S3 PutObject always fails. -/
def envPutFailW : Env := ⟨fun _ => false, fun _ => false, fun _ => true, fun _ => false⟩

/-- The store after uploading three identical 2-byte blocks into the empty
store: one block row whose ref_count is 3. -/
def dedupStore1 : Store :=
  ⟨[⟨1, [7, 7], [7, 7], 2, 3⟩], 2, [([7, 7], [7, 7])], [], 1, []⟩

/-- The store after uploading bytes [1, 2, 3] with block size 2 into the empty
store: two fresh blocks with ref_count 1 each. -/
def rtStore1 : Store :=
  ⟨[⟨1, [1, 2], [1, 2], 2, 1⟩, ⟨2, [3], [3], 1, 1⟩], 3,
   [([1, 2], [1, 2]), ([3], [3])], [], 1, []⟩

/-- `Except` values mapped onto sums, to decide equality of pipeline results. -/
def exceptToSum {ε α : Type} : Except ε α → ε ⊕ α
  | .error e => .inl e
  | .ok a => .inr a

instance instDecidableEqExcept {ε α : Type} [DecidableEq ε] [DecidableEq α] :
    DecidableEq (Except ε α) := fun a b =>
  decidable_of_iff (exceptToSum a = exceptToSum b)
    (by cases a <;> cases b <;> simp [exceptToSum])

/-! ## Chunking lemmas -/

theorem chunksOf_nil (S : Nat) : chunksOf S [] = [] := by
  rw [chunksOf]; simp

theorem chunksOf_cons (S : Nat) (l : Bytes) (hS : S ≠ 0) (hl : l ≠ []) :
    chunksOf S l = l.take S :: chunksOf S (l.drop S) := by
  rw [chunksOf]; simp [hS, hl]

theorem chunksOf_flatten (S : Nat) (hS : 0 < S) (l : Bytes) :
    (chunksOf S l).flatten = l := by
  refine chunksOf.induct S (fun l => (chunksOf S l).flatten = l) ?_ ?_ l
  · intro x h
    rcases h with h | h
    · omega
    · subst h; simp [chunksOf_nil]
  · intro x h ih
    rw [chunksOf_cons S x (by tauto) (by tauto)]
    simp only [List.flatten_cons]
    rw [ih, List.take_append_drop]

theorem chunksOf_length (S : Nat) (hS : 0 < S) (l : Bytes) :
    (chunksOf S l).length = (l.length + S - 1) / S := by
  refine chunksOf.induct S (fun l => (chunksOf S l).length = (l.length + S - 1) / S) ?_ ?_ l
  · intro x h
    rcases h with h | h
    · omega
    · subst h
      simp only [chunksOf_nil, List.length_nil]
      exact (Nat.div_eq_of_lt (by omega)).symm
  · intro x h ih
    have hS0 : S ≠ 0 := by tauto
    have hl : x ≠ [] := by tauto
    have hpos : 0 < x.length := List.length_pos.mpr hl
    rw [chunksOf_cons S x hS0 hl]
    simp only [List.length_cons, ih, List.length_drop]
    rcases Nat.lt_or_ge x.length S with hlt | hge
    · have h1 : x.length - S = 0 := by omega
      rw [h1]
      have h2 : (0 + S - 1) / S = 0 := Nat.div_eq_of_lt (by omega)
      have h3 : (x.length + S - 1) / S = 1 :=
        Nat.div_eq_of_lt_le (by omega) (by omega)
      omega
    · have h1 : x.length - S + S - 1 = x.length - 1 := by omega
      have h2 : x.length + S - 1 = x.length - 1 + S := by omega
      rw [h1, h2, Nat.add_div_right _ hS]

theorem chunksOf_mem_length (S : Nat) (hS : 0 < S) (l : Bytes) :
    ∀ c ∈ chunksOf S l, 1 ≤ c.length ∧ c.length ≤ S := by
  refine chunksOf.induct S (fun l => ∀ c ∈ chunksOf S l, 1 ≤ c.length ∧ c.length ≤ S) ?_ ?_ l
  · intro x h
    rcases h with h | h
    · omega
    · subst h; simp [chunksOf_nil]
  · intro x h ih
    have hl : x ≠ [] := by tauto
    have hpos : 0 < x.length := List.length_pos.mpr hl
    rw [chunksOf_cons S x (by tauto) hl]
    intro c hc
    rcases List.mem_cons.mp hc with hc | hc
    · subst hc
      simp only [List.length_take]
      omega
    · exact ih c hc

theorem chunksOf_dropLast_length (S : Nat) (hS : 0 < S) (l : Bytes) :
    ∀ c ∈ (chunksOf S l).dropLast, c.length = S := by
  refine chunksOf.induct S (fun l => ∀ c ∈ (chunksOf S l).dropLast, c.length = S) ?_ ?_ l
  · intro x h
    rcases h with h | h
    · omega
    · subst h; simp [chunksOf_nil]
  · intro x h ih
    have hS0 : S ≠ 0 := by tauto
    have hl : x ≠ [] := by tauto
    rw [chunksOf_cons S x hS0 hl]
    by_cases hrest : chunksOf S (x.drop S) = []
    · simp [hrest]
    · rw [List.dropLast_cons_of_ne_nil hrest]
      intro c hc
      rcases List.mem_cons.mp hc with hc | hc
      · subst hc
        have hlen : S ≤ x.length := by
          by_contra hcon
          have hnil : x.drop S = [] := List.drop_eq_nil_of_le (by omega)
          rw [hnil, chunksOf_nil] at hrest
          exact hrest rfl
        simp only [List.length_take]
        omega
      · exact ih c hc

theorem chunksOf_getLast? (S : Nat) (hS : 0 < S) (l : Bytes) (hl : l ≠ []) :
    ∃ c, (chunksOf S l).getLast? = some c ∧
      c.length = if l.length % S = 0 then S else l.length % S := by
  refine chunksOf.induct S
    (fun l => l ≠ [] → ∃ c, (chunksOf S l).getLast? = some c ∧
      c.length = if l.length % S = 0 then S else l.length % S)
    ?_ ?_ l hl
  · intro x h hx
    rcases h with h | h
    · omega
    · exact absurd h hx
  · intro x h ih hx
    have hS0 : S ≠ 0 := by tauto
    have hpos : 0 < x.length := List.length_pos.mpr hx
    have hcons := chunksOf_cons S x hS0 hx
    by_cases hrest : chunksOf S (x.drop S) = []
    · have hle : x.length ≤ S := by
        by_contra hcon
        have hd : x.drop S ≠ [] := by
          intro hnil
          have hlen := congrArg List.length hnil
          simp only [List.length_drop, List.length_nil] at hlen
          omega
        rw [chunksOf_cons S (x.drop S) hS0 hd] at hrest
        exact List.cons_ne_nil _ _ hrest
      refine ⟨x.take S, ?_, ?_⟩
      · rw [hcons, hrest]
        rfl
      · simp only [List.length_take]
        rcases Nat.lt_or_ge x.length S with hlt | hge
        · have h1 : x.length % S = x.length := Nat.mod_eq_of_lt hlt
          rw [h1, if_neg (by omega)]
          omega
        · have h1 : x.length = S := by omega
          simp [h1, Nat.mod_self]
    · have hd : x.drop S ≠ [] := by
        intro hnil
        rw [hnil, chunksOf_nil] at hrest
        exact hrest rfl
      have hlen : S < x.length := by
        by_contra hcon
        exact hd (List.drop_eq_nil_of_le (by omega))
      obtain ⟨c, hsome, hclen⟩ := ih hd
      refine ⟨c, ?_, ?_⟩
      · rw [hcons]
        rcases List.exists_cons_of_ne_nil hrest with ⟨r, rs, hrs⟩
        rw [hrs] at hsome ⊢
        rw [List.getLast?_cons_cons, hsome]
      · have hmod : (x.drop S).length % S = x.length % S := by
          simp only [List.length_drop]
          conv_rhs => rw [show x.length = x.length - S + S from by omega]
          rw [Nat.add_mod_right]
        rw [hmod] at hclen
        exact hclen

theorem sumLens_chunksOf (S : Nat) (hS : 0 < S) (l : Bytes) :
    sumLens (chunksOf S l) = l.length := by
  have := congrArg List.length (chunksOf_flatten S hS l)
  rw [List.length_flatten] at this
  simpa [sumLens] using this

/-! ## mkJobs lemmas -/

theorem mkJobs_map_data (hashFn : Bytes → Bytes) :
    ∀ (i : Nat) (cs : List Bytes), (mkJobs hashFn i cs).map (·.data) = cs := by
  intro i cs
  induction cs generalizing i with
  | nil => rfl
  | cons c rest ih => simp [mkJobs, ih]

theorem mkJobs_length (hashFn : Bytes → Bytes) (i : Nat) (cs : List Bytes) :
    (mkJobs hashFn i cs).length = cs.length := by
  have := congrArg List.length (mkJobs_map_data hashFn i cs)
  simpa using this

theorem mkJobs_dropLast (hashFn : Bytes → Bytes) :
    ∀ (i : Nat) (cs : List Bytes),
      (mkJobs hashFn i cs).dropLast = mkJobs hashFn i cs.dropLast := by
  intro i cs
  induction cs generalizing i with
  | nil => rfl
  | cons c rest ih =>
    cases rest with
    | nil => rfl
    | cons d ds =>
      show (⟨i, c, hashFn c⟩ :: mkJobs hashFn (i + 1) (d :: ds) : List blockJob).dropLast = _
      rw [List.dropLast_cons_of_ne_nil (by simp [mkJobs])]
      rw [ih (i + 1)]
      rfl

theorem chunksOf_mod_zero (S : Nat) (hS : 0 < S) (l : Bytes)
    (hmod : l.length % S = 0) : ∀ c ∈ chunksOf S l, c.length = S := by
  refine chunksOf.induct S
    (fun l => l.length % S = 0 → ∀ c ∈ chunksOf S l, c.length = S) ?_ ?_ l hmod
  · intro x h _
    rcases h with h | h
    · omega
    · subst h; simp [chunksOf_nil]
  · intro x h ih hm
    have hS0 : S ≠ 0 := by tauto
    have hx : x ≠ [] := by tauto
    have hpos : 0 < x.length := List.length_pos.mpr hx
    have hge : S ≤ x.length := by
      by_contra hcon
      have := Nat.mod_eq_of_lt (show x.length < S by omega)
      omega
    rw [chunksOf_cons S x hS0 hx]
    intro c hc
    rcases List.mem_cons.mp hc with hc | hc
    · subst hc
      simp only [List.length_take]
      omega
    · refine ih ?_ c hc
      have heq : (x.length - S) % S = x.length % S := by
        conv_rhs => rw [show x.length = x.length - S + S from by omega]
        rw [Nat.add_mod_right]
      simp only [List.length_drop, heq, hm]

theorem mkJobs_getLast?_data (hashFn : Bytes → Bytes) :
    ∀ (i : Nat) (cs : List Bytes),
      (mkJobs hashFn i cs).getLast?.map (·.data) = cs.getLast? := by
  intro i cs
  induction cs generalizing i with
  | nil => rfl
  | cons c rest ih =>
    cases rest with
    | nil => rfl
    | cons d ds =>
      show ((⟨i, c, hashFn c⟩ :: mkJobs hashFn (i + 1) (d :: ds) : List blockJob).getLast?).map _ = _
      rw [show (mkJobs hashFn (i + 1) (d :: ds)) =
        ⟨i + 1, d, hashFn d⟩ :: mkJobs hashFn (i + 2) ds from rfl]
      rw [List.getLast?_cons_cons]
      rw [show (⟨i + 1, d, hashFn d⟩ :: mkJobs hashFn (i + 2) ds : List blockJob) =
        mkJobs hashFn (i + 1) (d :: ds) from rfl]
      rw [ih (i + 1)]
      exact List.getLast?_cons_cons.symm

/-- C5: for every input stream of length `N` ending cleanly, with block size
`S > 0`, splitStream produces `⌈N/S⌉` blocks; every block except possibly the
last has length exactly `S`; every block is nonempty and at most `S` long; when
`N mod S ≠ 0` the final block has length `N mod S` (so `1 ≤ n < S`); when
`N mod S = 0` every block is full, so there is no trailing short block; an
empty input produces zero blocks; and the reported total byte count is `N`. -/
theorem claim_C5_splitStream (hashFn : Bytes → Bytes) (S : Nat) (hS : 0 < S)
    (input : Bytes) (jobs : List blockJob) (total : Nat)
    (hrun : splitStreamM hashFn S ⟨input, .eof⟩ = .ok (jobs, total)) :
    jobs.length = (input.length + S - 1) / S ∧
    (∀ j ∈ jobs.dropLast, j.data.length = S) ∧
    (∀ j ∈ jobs, 1 ≤ j.data.length ∧ j.data.length ≤ S) ∧
    (input.length % S ≠ 0 →
      ∃ j, jobs.getLast? = some j ∧ j.data.length = input.length % S) ∧
    (input.length % S = 0 → ∀ j ∈ jobs, j.data.length = S) ∧
    (input = [] → jobs = []) ∧
    total = input.length := by
  have hpair : jobs = mkJobs hashFn 0 (chunksOf S input) ∧
      total = sumLens (chunksOf S input) := by
    simp only [splitStreamM, Except.ok.injEq, Prod.mk.injEq] at hrun
    exact ⟨hrun.1.symm, hrun.2.symm⟩
  obtain ⟨hjobs, htotal⟩ := hpair
  subst hjobs htotal
  refine ⟨?_, ?_, ?_, ?_, ?_, ?_, ?_⟩
  · rw [mkJobs_length, chunksOf_length S hS]
  · intro j hj
    rw [mkJobs_dropLast] at hj
    have : j.data ∈ (chunksOf S input).dropLast := by
      have := List.mem_map_of_mem (fun j : blockJob => j.data) hj
      rwa [mkJobs_map_data] at this
    exact chunksOf_dropLast_length S hS input j.data this
  · intro j hj
    have : j.data ∈ chunksOf S input := by
      have := List.mem_map_of_mem (fun j : blockJob => j.data) hj
      rwa [mkJobs_map_data] at this
    exact chunksOf_mem_length S hS input j.data this
  · intro hmod
    have hne : input ≠ [] := fun hnil => hmod (by simp [hnil])
    obtain ⟨c, hsome, hclen⟩ := chunksOf_getLast? S hS input hne
    have hmap := mkJobs_getLast?_data hashFn 0 (chunksOf S input)
    rw [hsome] at hmap
    rcases hopt : (mkJobs hashFn 0 (chunksOf S input)).getLast? with _ | j
    · rw [hopt] at hmap
      exact Option.noConfusion hmap
    · rw [hopt] at hmap
      refine ⟨j, rfl, ?_⟩
      have hjc : j.data = c := Option.some.inj hmap
      rw [hjc, hclen, if_neg hmod]
  · intro hmod j hj
    have : j.data ∈ chunksOf S input := by
      have := List.mem_map_of_mem (fun j : blockJob => j.data) hj
      rwa [mkJobs_map_data] at this
    exact chunksOf_mod_zero S hS input hmod j.data this
  · intro hnil
    rw [hnil, chunksOf_nil]
    rfl
  · exact sumLens_chunksOf S hS input

/-- Witness for C5 at a concrete input: block size 2, seven bytes. -/
theorem claim_C5_splitStream_witness :
    (0 < 2 ∧
      splitStreamM id 2 ⟨[10, 11, 12, 13, 14, 15, 16], .eof⟩ =
        .ok (mkJobs id 0 (chunksOf 2 [10, 11, 12, 13, 14, 15, 16]), 7)) ∧
    ((mkJobs id 0 (chunksOf 2 [10, 11, 12, 13, 14, 15, 16])).length = (7 + 2 - 1) / 2 ∧
      (∀ j ∈ (mkJobs id 0 (chunksOf 2 [10, 11, 12, 13, 14, 15, 16])).dropLast,
        j.data.length = 2) ∧
      (∀ j ∈ mkJobs id 0 (chunksOf 2 [10, 11, 12, 13, 14, 15, 16]),
        1 ≤ j.data.length ∧ j.data.length ≤ 2) ∧
      ((7 : Nat) % 2 ≠ 0 →
        ∃ j, (mkJobs id 0 (chunksOf 2 [10, 11, 12, 13, 14, 15, 16])).getLast? = some j ∧
          j.data.length = 7 % 2) ∧
      ((7 : Nat) % 2 = 0 →
        ∀ j ∈ mkJobs id 0 (chunksOf 2 [10, 11, 12, 13, 14, 15, 16]), j.data.length = 2) ∧
      (([10, 11, 12, 13, 14, 15, 16] : Bytes) = [] →
        mkJobs id 0 (chunksOf 2 [10, 11, 12, 13, 14, 15, 16]) = []) ∧
      (7 : Nat) = ([10, 11, 12, 13, 14, 15, 16] : Bytes).length) :=
  ⟨⟨by decide, by simp [splitStreamM, sumLens, chunksOf]⟩,
    claim_C5_splitStream id 2 (by decide) [10, 11, 12, 13, 14, 15, 16] _ 7
      (by simp [splitStreamM, sumLens, chunksOf])⟩

/-! ## Gather lemmas: the ordered array is independent of completion order -/

theorem foldl_set_length (rs : List (Nat × Nat)) :
    ∀ acc : List Nat, (rs.foldl (fun a r => a.set r.1 r.2) acc).length = acc.length := by
  induction rs with
  | nil => intro acc; rfl
  | cons q rest ih =>
    intro acc
    simp only [List.foldl_cons, ih, List.length_set]

theorem foldl_set_untouched (rs : List (Nat × Nat)) :
    ∀ (acc : List Nat) (i : Nat), (∀ p ∈ rs, p.1 ≠ i) →
      (rs.foldl (fun a r => a.set r.1 r.2) acc)[i]? = acc[i]? := by
  induction rs with
  | nil => intro acc i _; rfl
  | cons q rest ih =>
    intro acc i hne
    simp only [List.foldl_cons]
    rw [ih _ i (fun p hp => hne p (List.mem_cons_of_mem q hp))]
    exact List.getElem?_set_ne (hne q (List.mem_cons_self q rest))

theorem foldl_set_hits (rs : List (Nat × Nat)) :
    ∀ acc : List Nat, (rs.map Prod.fst).Nodup → (∀ p ∈ rs, p.1 < acc.length) →
      ∀ p ∈ rs, (rs.foldl (fun a r => a.set r.1 r.2) acc)[p.1]? = some p.2 := by
  induction rs with
  | nil => intro acc _ _ p hp; exact absurd hp (List.not_mem_nil p)
  | cons q rest ih =>
    intro acc hnodup hbound p hp
    simp only [List.map_cons, List.nodup_cons] at hnodup
    simp only [List.foldl_cons]
    rcases List.mem_cons.mp hp with hp | hp
    · subst hp
      rw [foldl_set_untouched rest _ p.1 ?_]
      · rw [List.getElem?_set_self]
        exact hbound p (List.mem_cons_self p rest)
      · intro r hr hcon
        exact hnodup.1 (hcon ▸ List.mem_map_of_mem Prod.fst hr)
    · refine ih _ hnodup.2 ?_ p hp
      intro r hr
      rw [List.length_set]
      exact hbound r (List.mem_cons_of_mem q hr)

theorem gatherBlockIds_length (rs : List (Nat × Nat)) :
    (gatherBlockIds rs).length = rs.length := by
  rw [gatherBlockIds, foldl_set_length, List.length_replicate]

theorem gatherBlockIds_spec (rs : List (Nat × Nat))
    (hidx : (rs.map Prod.fst).Perm (List.range rs.length)) :
    ∀ p ∈ rs, (gatherBlockIds rs)[p.1]? = some p.2 := by
  have hnodup : (rs.map Prod.fst).Nodup := hidx.nodup_iff.mpr (List.nodup_range _)
  have hbound : ∀ p ∈ rs, p.1 < rs.length := fun p hp => by
    have : p.1 ∈ List.range rs.length :=
      hidx.mem_iff.mp (List.mem_map_of_mem Prod.fst hp)
    exact List.mem_range.mp this
  intro p hp
  rw [gatherBlockIds]
  refine foldl_set_hits rs _ hnodup ?_ p hp
  intro r hr
  rw [List.length_replicate]
  exact hbound r hr

/-- C4: the final index-to-blockId array produced by the collector is a function
of the multiset of `(index, blockId)` results and not of their arrival order:
for any permutation of worker completion order over the same per-block
outcomes, the assembled array is identical, and it maps each result's index to
that result's block id (read order). -/
theorem claim_C4_order_independence (rs rs' : List (Nat × Nat))
    (hperm : rs'.Perm rs) (hidx : (rs.map Prod.fst).Perm (List.range rs.length)) :
    gatherBlockIds rs' = gatherBlockIds rs ∧
    ∀ p ∈ rs, (gatherBlockIds rs)[p.1]? = some p.2 := by
  have hlen : rs'.length = rs.length := hperm.length_eq
  have hidx' : (rs'.map Prod.fst).Perm (List.range rs'.length) := by
    rw [hlen]
    exact (hperm.map Prod.fst).trans hidx
  have hspec := gatherBlockIds_spec rs hidx
  have hspec' := gatherBlockIds_spec rs' hidx'
  refine ⟨?_, hspec⟩
  apply List.ext_getElem?
  intro i
  by_cases hi : i < rs.length
  · have : i ∈ rs.map Prod.fst := hidx.mem_iff.mpr (List.mem_range.mpr hi)
    obtain ⟨p, hp, hpi⟩ := List.mem_map.mp this
    have h1 : (gatherBlockIds rs)[p.1]? = some p.2 := hspec p hp
    have h2 : (gatherBlockIds rs')[p.1]? = some p.2 := hspec' p (hperm.mem_iff.mpr hp)
    rw [← hpi, h1, h2]
  · rw [List.getElem?_eq_none, List.getElem?_eq_none]
    · rw [gatherBlockIds_length]; omega
    · rw [gatherBlockIds_length, hlen]; omega

/-- Witness for C4: three results arriving in reversed order assemble to the
same array as in read order. -/
theorem claim_C4_order_independence_witness :
    (([(2, 30), (1, 20), (0, 10)] : List (Nat × Nat)).Perm [(0, 10), (1, 20), (2, 30)] ∧
      (([(0, 10), (1, 20), (2, 30)] : List (Nat × Nat)).map Prod.fst).Perm
        (List.range ([(0, 10), (1, 20), (2, 30)] : List (Nat × Nat)).length)) ∧
    (gatherBlockIds [(2, 30), (1, 20), (0, 10)] = gatherBlockIds [(0, 10), (1, 20), (2, 30)] ∧
      ∀ p ∈ ([(0, 10), (1, 20), (2, 30)] : List (Nat × Nat)),
        (gatherBlockIds [(0, 10), (1, 20), (2, 30)])[p.1]? = some p.2) :=
  ⟨⟨by decide, by decide⟩,
    claim_C4_order_independence [(0, 10), (1, 20), (2, 30)] [(2, 30), (1, 20), (0, 10)]
      (by decide) (by decide)⟩

/-! ## The concurrent-insert race (spec §5) -/

/-- C2: the concurrent-insert race.  Both workers observe
`FindByHash raceStore0 [7] = none`; worker A's create succeeds, leaving
`raceStore1`.  The loser's continuation (`processBlockMiss`, the code path
after its own nil lookup) then hits the uniqueness violation — and the code
propagates the `Create` error, failing the pipeline: it does not re-run
`FindByHash`, performs no `IncrementRefCount` (the winner's row keeps
ref_count 1), and emits no block id.  This contradicts the specified behaviour
(treat the violation as a dedup hit), so the claim marks a code bug. -/
theorem claim_C2_race_loser_fails_pipeline :
    FindByHash raceStore0 [7] = none ∧
    processBlock noFailEnv raceStore0 ⟨0, [7], [7]⟩ = (.ok 1, raceStore1) ∧
    (processBlockMiss noFailEnv raceStore1 ⟨0, [7], [7]⟩).1 =
      .error ("processBlock Create block record: " ++
        "BlockRepository.Create: duplicate key value violates unique constraint") ∧
    (processBlockMiss noFailEnv raceStore1 ⟨0, [7], [7]⟩).2.blocks = raceStore1.blocks := by
  refine ⟨by decide, by decide, by decide, by decide⟩

/-! ## Delete handler: reclamation (C6) and double delete (C9) -/

/-- C6: on file deletion, once the File row is removed, the handler runs the
reclamation loop over the snapshotted block ids: `DecrementRefCount` is invoked
for every snapshotted id; whenever the returned count is ≤ 0, the object-store
key is deleted and then the Block row, in that order; and any error in decRef,
object deletion, or row deletion is logged but never changes the response — the
delete answers 204 for every outcome of those calls. -/
theorem claim_C6_delete_reclaims (env : DelEnv) (fid : Nat) (ids : List Nat)
    (blocks : List BlockRow)
    (hsnap : env.getBlockIds fid = some ids)
    (hdel : env.fileDeleteOk = true)
    (hrows : env.findByIds ids = some blocks)
    (hcover : blocks.map (·.id) = ids) :
    (deleteFileHandler env fid).1 = 204 ∧
    (deleteFileHandler env fid).2 = (blocks.map (reclaimBlockEvents env)).flatten ∧
    (∀ bid ∈ ids, Event.decRef bid (env.decRef bid) ∈ (deleteFileHandler env fid).2) ∧
    (∀ b ∈ blocks,
      (env.decRef b.id = none → reclaimBlockEvents env b = [.decRef b.id none]) ∧
      (∀ n, env.decRef b.id = some n → n ≤ 0 →
        reclaimBlockEvents env b =
          [.decRef b.id (some n), .s3Delete b.s3Key (env.s3Delete b.s3Key),
           .rowDelete b.id (env.rowDelete b.id)]) ∧
      (∀ n, env.decRef b.id = some n → 0 < n →
        reclaimBlockEvents env b = [.decRef b.id (some n)])) := by
  have hout : deleteFileHandler env fid =
      (204, (blocks.map (reclaimBlockEvents env)).flatten) := by
    simp [deleteFileHandler, hsnap, hdel, hrows]
  refine ⟨by rw [hout], by rw [hout], ?_, ?_⟩
  · intro bid hbid
    rw [← hcover] at hbid
    obtain ⟨b, hb, hbeq⟩ := List.mem_map.mp hbid
    rw [hout]
    subst hbeq
    have hhead : Event.decRef b.id (env.decRef b.id) ∈ reclaimBlockEvents env b := by
      rcases hdec : env.decRef b.id with _ | n
      · simp [reclaimBlockEvents, hdec]
      · by_cases hn : n ≤ 0
        · simp [reclaimBlockEvents, hdec, hn]
        · simp [reclaimBlockEvents, hdec, hn]
    exact List.mem_flatten.mpr ⟨reclaimBlockEvents env b,
      List.mem_map_of_mem (reclaimBlockEvents env) hb, hhead⟩
  · intro b _
    refine ⟨?_, ?_, ?_⟩
    · intro hdec
      simp [reclaimBlockEvents, hdec]
    · intro n hdec hn
      simp [reclaimBlockEvents, hdec, hn]
    · intro n hdec hn
      simp [reclaimBlockEvents, hdec, show ¬n ≤ 0 by omega]

/-- Witness for C6 at the concrete environment `delEnvW`. -/
theorem claim_C6_delete_reclaims_witness :
    (delEnvW.getBlockIds 9 = some [1, 2] ∧ delEnvW.fileDeleteOk = true ∧
      delEnvW.findByIds [1, 2] =
        some [⟨1, [5], [5], 4, 1⟩, ⟨2, [6], [6], 4, 3⟩] ∧
      ([⟨1, [5], [5], 4, 1⟩, ⟨2, [6], [6], 4, 3⟩] : List BlockRow).map (·.id) = [1, 2]) ∧
    ((deleteFileHandler delEnvW 9).1 = 204 ∧
      (deleteFileHandler delEnvW 9).2 =
        (([⟨1, [5], [5], 4, 1⟩, ⟨2, [6], [6], 4, 3⟩] : List BlockRow).map
          (reclaimBlockEvents delEnvW)).flatten ∧
      (∀ bid ∈ [1, 2], Event.decRef bid (delEnvW.decRef bid) ∈ (deleteFileHandler delEnvW 9).2) ∧
      (∀ b ∈ ([⟨1, [5], [5], 4, 1⟩, ⟨2, [6], [6], 4, 3⟩] : List BlockRow),
        (delEnvW.decRef b.id = none → reclaimBlockEvents delEnvW b = [.decRef b.id none]) ∧
        (∀ n, delEnvW.decRef b.id = some n → n ≤ 0 →
          reclaimBlockEvents delEnvW b =
            [.decRef b.id (some n), .s3Delete b.s3Key (delEnvW.s3Delete b.s3Key),
             .rowDelete b.id (delEnvW.rowDelete b.id)]) ∧
        (∀ n, delEnvW.decRef b.id = some n → 0 < n →
          reclaimBlockEvents delEnvW b = [.decRef b.id (some n)]))) :=
  ⟨⟨by decide, by decide, by decide, by decide⟩,
    claim_C6_delete_reclaims delEnvW 9 [1, 2] [⟨1, [5], [5], 4, 1⟩, ⟨2, [6], [6], 4, 3⟩]
      (by decide) (by decide) (by decide) (by decide)⟩

/-- C9: deleting an already-deleted (or foreign) file performs no reclamation:
when the File-row delete removes zero rows, the handler answers 403 Forbidden
before the reclamation loop, so that request decrements no ref count and
deletes no object and no Block row (no events at all). -/
theorem claim_C9_no_double_decrement (env : DelEnv) (fid : Nat) (ids : List Nat)
    (hsnap : env.getBlockIds fid = some ids)
    (hdel : env.fileDeleteOk = false) :
    deleteFileHandler env fid = (403, []) := by
  rw [deleteFileHandler, hsnap, hdel]
  rfl

/-- Witness for C9: with a failed File-row delete the handler answers 403 and
emits no reclamation event. -/
theorem claim_C9_no_double_decrement_witness :
    (delEnvW2.getBlockIds 9 = some [1, 2] ∧ delEnvW2.fileDeleteOk = false) ∧
    deleteFileHandler delEnvW2 9 = (403, []) :=
  ⟨⟨by decide, by decide⟩,
    claim_C9_no_double_decrement delEnvW2 9 [1, 2] (by decide) (by decide)⟩

/-! ## Ownership and isolation (C8) -/

theorem FindByIDAndUserID_eq_none_iff (st : Store) (fid uid : Nat) :
    FindByIDAndUserID st fid uid = none ↔ ¬ownedBy st fid uid := by
  rw [FindByIDAndUserID, List.find?_eq_none]
  constructor
  · intro h hcon
    obtain ⟨f, hf, h1, h2⟩ := hcon
    have := h f hf
    simp [h1, h2] at this
  · intro h f hf
    simp only [Bool.and_eq_true, beq_iff_eq, not_and]
    intro h1 h2
    exact absurd ⟨f, hf, h1, h2⟩ h

theorem FileDelete_fst (st : Store) (fid uid : Nat) :
    (FileDelete st fid uid).1 =
      st.files.any (fun f => f.id == fid && f.userId == uid) := by
  rw [FileDelete]
  by_cases hany : st.files.any (fun f => f.id == fid && f.userId == uid) <;> simp [hany]

theorem FileDelete_false_iff (st : Store) (fid uid : Nat) :
    (FileDelete st fid uid).1 = false ↔ ¬ownedBy st fid uid := by
  rw [FileDelete_fst, ownedBy, List.any_eq_false]
  constructor
  · intro h hcon
    obtain ⟨f, hf, h1, h2⟩ := hcon
    have := h f hf
    simp [h1, h2] at this
  · intro h f hf
    simp only [Bool.and_eq_true, beq_iff_eq, not_and]
    intro h1 h2
    exact absurd ⟨f, hf, h1, h2⟩ h

/-- C8: the download, file-info and delete endpoints answer Forbidden exactly
when the targeted file does not exist or belongs to a different user; the two
causes produce literally the same response (anti-enumeration), and a forbidden
delete leaves the store untouched — a user can never observe, download, or
delete another user's file. -/
theorem claim_C8_owner_isolation (st : Store) (fid uid : Nat) (preview : Bool) :
    (downloadHandler st fid uid preview =
        .errJson 403 "forbidden" "you do not have access to this file" ↔
      ¬ownedBy st fid uid) ∧
    (fileInfoHandler st fid uid =
        .err 403 "forbidden" "file not found or unauthorized" ↔
      ¬ownedBy st fid uid) ∧
    ((deleteFilePure st fid uid).1 = 403 ↔ ¬ownedBy st fid uid) ∧
    (¬ownedBy st fid uid → (deleteFilePure st fid uid).2 = st) := by
  refine ⟨?_, ?_, ?_, ?_⟩
  · rcases hfind : FindByIDAndUserID st fid uid with _ | f
    · have hno : ¬ownedBy st fid uid := (FindByIDAndUserID_eq_none_iff st fid uid).mp hfind
      simp only [downloadHandler, hfind]
      simp [hno]
    · have howned : ownedBy st fid uid := by
        have hp := List.find?_some hfind
        have hm := List.mem_of_find?_eq_some hfind
        simp only [Bool.and_eq_true, beq_iff_eq] at hp
        exact ⟨f, hm, hp.1, hp.2⟩
      simp only [downloadHandler, hfind]
      constructor
      · intro hcon
        rcases hbs : BlocksToStream st.objects (FindByIDs st (GetBlockIDs st f.id)) with e | body
        · rw [hbs] at hcon
          exact HttpOut.noConfusion hcon
        · rw [hbs] at hcon
          exact HttpOut.noConfusion hcon
      · intro hcon
        exact absurd howned hcon
  · rcases hfind : FindByIDAndUserID st fid uid with _ | f
    · have hno : ¬ownedBy st fid uid := (FindByIDAndUserID_eq_none_iff st fid uid).mp hfind
      simp only [fileInfoHandler, hfind]
      simp [hno]
    · have howned : ownedBy st fid uid := by
        have hp := List.find?_some hfind
        have hm := List.mem_of_find?_eq_some hfind
        simp only [Bool.and_eq_true, beq_iff_eq] at hp
        exact ⟨f, hm, hp.1, hp.2⟩
      simp only [fileInfoHandler, hfind]
      constructor
      · intro hcon
        exact InfoOut.noConfusion hcon
      · intro hcon
        exact absurd howned hcon
  · rcases hdel : FileDelete st fid uid with ⟨b, st1⟩
    rcases b with _ | _
    · have hno : ¬ownedBy st fid uid := by
        rw [← FileDelete_false_iff st fid uid, hdel]
    -- the File-row delete matched no row: the handler answers 403
      simp only [deleteFilePure, hdel]
      simpa using hno
    · have hyes : ¬¬ownedBy st fid uid := by
        rw [← FileDelete_false_iff st fid uid, hdel]
        simp
      simp only [deleteFilePure, hdel]
      constructor
      · intro hcon
        exact absurd hcon (by decide)
      · intro hcon
        exact absurd hcon hyes
  · intro hno
    have hfalse : (FileDelete st fid uid).1 = false := (FileDelete_false_iff st fid uid).mpr hno
    have hsame : (FileDelete st fid uid).2 = st := by
      rw [FileDelete_fst] at hfalse
      rw [FileDelete, hfalse]
      simp
    rcases hdel : FileDelete st fid uid with ⟨b, st1⟩
    rcases b with _ | _
    · simp only [deleteFilePure, hdel]
      rw [hdel] at hsame
      exact hsame
    · rw [hdel] at hfalse
      simp at hfalse

/-- Witness for C8: user 2 targeting user 1's file id 5 is Forbidden on all
three endpoints, and the forbidden delete leaves the store unchanged. -/
theorem claim_C8_owner_isolation_witness :
    (downloadHandler isoStore 5 2 false =
        .errJson 403 "forbidden" "you do not have access to this file" ↔
      ¬ownedBy isoStore 5 2) ∧
    (fileInfoHandler isoStore 5 2 =
        .err 403 "forbidden" "file not found or unauthorized" ↔
      ¬ownedBy isoStore 5 2) ∧
    ((deleteFilePure isoStore 5 2).1 = 403 ↔ ¬ownedBy isoStore 5 2) ∧
    (¬ownedBy isoStore 5 2 → (deleteFilePure isoStore 5 2).2 = isoStore) :=
  claim_C8_owner_isolation isoStore 5 2 false

/-! ## Upload failure leaves no visible file (C7) -/

theorem processBlock_preserves_tables (env : Env) (st : Store) (job : blockJob) :
    (processBlock env st job).2.files = st.files ∧
    (processBlock env st job).2.fileBlocks = st.fileBlocks ∧
    (processBlock env st job).2.nextFileId = st.nextFileId := by
  rw [processBlock]
  by_cases hf : env.findFail job.hash
  · simp [hf]
  · simp only [hf, Bool.false_eq_true, if_false]
    rcases FindByHash st job.hash with _ | ex
    · rw [processBlockMiss]
      by_cases hp : env.putFail job.hash
      · simp [hp]
      · simp only [hp, Bool.false_eq_true, if_false]
        rw [BlockCreate]
        by_cases hc : env.createFail job.hash
        · simp [hc, PutObject]
        · simp only [hc, Bool.false_eq_true, if_false]
          by_cases hd : st.blocks.any (fun r => r.sha256Hash == job.hash)
          · simp [hd, PutObject]
          · simp [hd, PutObject]
    · by_cases hi : env.incFail ex.id
      · simp [hi]
      · simp [hi, IncrementRefCount]

theorem streamLoop_preserves_tables (env : Env) (hashFn : Bytes → Bytes) (S : Nat)
    (st : Store) (idx : Nat) (data : Bytes) (ending : StreamEnd) :
    (streamLoop env hashFn S st idx data ending).store.files = st.files ∧
    (streamLoop env hashFn S st idx data ending).store.fileBlocks = st.fileBlocks ∧
    (streamLoop env hashFn S st idx data ending).store.nextFileId = st.nextFileId := by
  refine streamLoop.induct env hashFn S
    (fun st idx data ending =>
      (streamLoop env hashFn S st idx data ending).store.files = st.files ∧
      (streamLoop env hashFn S st idx data ending).store.fileBlocks = st.fileBlocks ∧
      (streamLoop env hashFn S st idx data ending).store.nextFileId = st.nextFileId)
    ?_ ?_ ?_ ?_ ?_ ?_ st idx data ending
  · intro st idx data ending hfull chunk e st' hpb
    rw [show chunk = List.take S data from rfl] at hpb
    have htab := processBlock_preserves_tables env st ⟨idx, data.take S, hashFn (data.take S)⟩
    rw [hpb] at htab
    rw [streamLoop, dif_pos hfull]
    simp only []
    rw [hpb]
    exact htab
  · intro st idx data ending hfull chunk bid st' hpb ih
    rw [show chunk = List.take S data from rfl] at hpb
    have htab := processBlock_preserves_tables env st ⟨idx, data.take S, hashFn (data.take S)⟩
    rw [hpb] at htab
    rw [streamLoop, dif_pos hfull]
    simp only []
    rw [hpb]
    refine ⟨?_, ?_, ?_⟩
    · exact ih.1.trans htab.1
    · exact ih.2.1.trans htab.2.1
    · exact ih.2.2.trans htab.2.2
  · intro st idx h1 _
    rw [streamLoop, dif_neg h1]
    exact ⟨rfl, rfl, rfl⟩
  · intro st idx m h1 _
    rw [streamLoop, dif_neg h1]
    exact ⟨rfl, rfl, rfl⟩
  · intro st idx d e hfull _ _ er st' hpb _
    have htab := processBlock_preserves_tables env st ⟨idx, d, hashFn d⟩
    rw [hpb] at htab
    rw [streamLoop, dif_neg hfull]
    rcases d with _ | ⟨b, bs⟩
    · cases e
      · exact ⟨rfl, rfl, rfl⟩
      · exact ⟨rfl, rfl, rfl⟩
    · cases e
      · simp only []
        rw [hpb]
        exact htab
      · simp only []
        rw [hpb]
        exact htab
  · intro st idx d e hfull hne1 hne2 bid st' hpb _
    have htab := processBlock_preserves_tables env st ⟨idx, d, hashFn d⟩
    rw [hpb] at htab
    rw [streamLoop, dif_neg hfull]
    rcases d with _ | ⟨b, bs⟩
    · cases e
      · exact ⟨rfl, rfl, rfl⟩
      · exact ⟨rfl, rfl, rfl⟩
    · cases e
      · simp only []
        rw [hpb]
        exact htab
      · simp only []
        rw [hpb]
        exact htab

theorem ProcessStreamingM_snd (env : Env) (hashFn : Bytes → Bytes) (S : Nat)
    (st : Store) (bs : ByteStream) :
    (ProcessStreamingM env hashFn S st bs).2 =
      (streamLoop env hashFn S st 0 bs.data bs.ending).store := by
  simp only [ProcessStreamingM]
  rcases hres : (streamLoop env hashFn S st 0 bs.data bs.ending).res with e | results
  · rfl
  · rcases hre : (streamLoop env hashFn S st 0 bs.data bs.ending).readErr with _ | m
    · rfl
    · rfl

/-- C7: when the block pipeline fails, the upload handler answers the
upload_failed envelope (HTTP 500) and returns before `FileRepository.Create`
and `LinkBlocks` run: the files table and the file_blocks table are exactly
those of the pre-upload store, so the requesting user's set of visible files is
unchanged (only orphaned blocks/objects may have been added). -/
theorem claim_C7_upload_failed_no_visible_file (env : Env) (hashFn : Bytes → Bytes)
    (S : Nat) (st : Store) (uid : Nat) (name mime : String) (bs : ByteStream)
    (e : String)
    (herr : (ProcessStreamingM env hashFn S st bs).1 = .error e) :
    uploadHandler env hashFn S st uid name mime bs =
      ((500, "upload_failed"), (ProcessStreamingM env hashFn S st bs).2) ∧
    (uploadHandler env hashFn S st uid name mime bs).2.files = st.files ∧
    (uploadHandler env hashFn S st uid name mime bs).2.fileBlocks = st.fileBlocks ∧
    visibleFiles (uploadHandler env hashFn S st uid name mime bs).2 uid =
      visibleFiles st uid := by
  have hpair : ProcessStreamingM env hashFn S st bs =
      (.error e, (ProcessStreamingM env hashFn S st bs).2) := by
    conv_lhs => rw [show ProcessStreamingM env hashFn S st bs =
      ((ProcessStreamingM env hashFn S st bs).1,
        (ProcessStreamingM env hashFn S st bs).2) from rfl]
    rw [herr]
  have hup : uploadHandler env hashFn S st uid name mime bs =
      ((500, "upload_failed"), (ProcessStreamingM env hashFn S st bs).2) := by
    rw [uploadHandler, hpair]
  have hsnd := ProcessStreamingM_snd env hashFn S st bs
  have htab := streamLoop_preserves_tables env hashFn S st 0 bs.data bs.ending
  have hfiles : (uploadHandler env hashFn S st uid name mime bs).2.files = st.files := by
    rw [hup]
    show (ProcessStreamingM env hashFn S st bs).2.files = st.files
    rw [hsnd]
    exact htab.1
  have hfb : (uploadHandler env hashFn S st uid name mime bs).2.fileBlocks = st.fileBlocks := by
    rw [hup]
    show (ProcessStreamingM env hashFn S st bs).2.fileBlocks = st.fileBlocks
    rw [hsnd]
    exact htab.2.1
  refine ⟨hup, hfiles, hfb, ?_⟩
  rw [visibleFiles, visibleFiles, hfiles]

/-- Witness for C7: a one-byte upload into the empty store with a failing S3
put answers upload_failed and leaves the files tables empty. -/
theorem claim_C7_upload_failed_no_visible_file_witness :
    (ProcessStreamingM envPutFailW id 2 raceStore0 ⟨[9], .eof⟩).1 =
      .error (workerErrMsg 0 "processBlock PutObject: transport failure") ∧
    (uploadHandler envPutFailW id 2 raceStore0 1 "a" "m" ⟨[9], .eof⟩ =
        ((500, "upload_failed"), (ProcessStreamingM envPutFailW id 2 raceStore0 ⟨[9], .eof⟩).2) ∧
      (uploadHandler envPutFailW id 2 raceStore0 1 "a" "m" ⟨[9], .eof⟩).2.files = raceStore0.files ∧
      (uploadHandler envPutFailW id 2 raceStore0 1 "a" "m" ⟨[9], .eof⟩).2.fileBlocks =
        raceStore0.fileBlocks ∧
      visibleFiles (uploadHandler envPutFailW id 2 raceStore0 1 "a" "m" ⟨[9], .eof⟩).2 1 =
        visibleFiles raceStore0 1) :=
  ⟨by simp [ProcessStreamingM, streamLoop, processBlock, processBlockMiss, FindByHash,
      envPutFailW, raceStore0],
    claim_C7_upload_failed_no_visible_file envPutFailW id 2 raceStore0 1 "a" "m" ⟨[9], .eof⟩
      (workerErrMsg 0 "processBlock PutObject: transport failure")
      (by simp [ProcessStreamingM, streamLoop, processBlock, processBlockMiss, FindByHash,
        envPutFailW, raceStore0])⟩

/-! ## Equivalence of the streaming and the batch Process variant (C10) -/

theorem streamLoop_eof_eq_runWorkers (env : Env) (hashFn : Bytes → Bytes) (S : Nat)
    (hS : 0 < S) (data : Bytes) : ∀ (st : Store) (idx : Nat),
    (streamLoop env hashFn S st idx data .eof).res =
      (runWorkersM env st (mkJobs hashFn idx (chunksOf S data))).1 ∧
    (streamLoop env hashFn S st idx data .eof).store =
      (runWorkersM env st (mkJobs hashFn idx (chunksOf S data))).2 ∧
    (streamLoop env hashFn S st idx data .eof).readErr = none ∧
    (∀ results, (streamLoop env hashFn S st idx data .eof).res = .ok results →
      (streamLoop env hashFn S st idx data .eof).total = sumLens (chunksOf S data)) := by
  refine chunksOf.induct S (fun data => ∀ st idx,
    (streamLoop env hashFn S st idx data .eof).res =
      (runWorkersM env st (mkJobs hashFn idx (chunksOf S data))).1 ∧
    (streamLoop env hashFn S st idx data .eof).store =
      (runWorkersM env st (mkJobs hashFn idx (chunksOf S data))).2 ∧
    (streamLoop env hashFn S st idx data .eof).readErr = none ∧
    (∀ results, (streamLoop env hashFn S st idx data .eof).res = .ok results →
      (streamLoop env hashFn S st idx data .eof).total = sumLens (chunksOf S data)))
    ?_ ?_ data
  · intro x h st idx
    rcases h with h | h
    · omega
    · subst h
      rw [chunksOf_nil]
      rw [streamLoop, dif_neg (by simp; omega)]
      exact ⟨rfl, rfl, rfl, fun _ _ => rfl⟩
  · intro x h ih st idx
    have hS0 : S ≠ 0 := by tauto
    have hx : x ≠ [] := by tauto
    have hxpos : 0 < x.length := List.length_pos.mpr hx
    rcases Nat.lt_or_ge x.length S with hlt | hge
    · -- final short block: the whole remainder is one chunk
      have htake : x.take S = x := List.take_of_length_le (by omega)
      have hdrop : x.drop S = [] := List.drop_eq_nil_of_le (by omega)
      have hchunks : chunksOf S x = [x] := by
        rw [chunksOf_cons S x hS0 hx, htake, hdrop, chunksOf_nil]
      rw [hchunks]
      have hcond : ¬(0 < S ∧ S ≤ x.length) := by omega
      rw [streamLoop, dif_neg hcond]
      rcases x with _ | ⟨b, bs⟩
      · exact absurd rfl hx
      · simp only [mkJobs, runWorkersM]
        rcases hpb : processBlock env st ⟨idx, b :: bs, hashFn (b :: bs)⟩ with ⟨res1, st'⟩
        rcases res1 with e | bid
        · exact ⟨rfl, rfl, rfl, fun results hcon => Except.noConfusion hcon⟩
        · refine ⟨rfl, rfl, rfl, ?_⟩
          intro results _
          simp [sumLens]
    · -- full chunk followed by the rest of the stream
      have hcond : 0 < S ∧ S ≤ x.length := ⟨hS, hge⟩
      have hchunks : chunksOf S x = x.take S :: chunksOf S (x.drop S) :=
        chunksOf_cons S x hS0 hx
      rw [hchunks]
      rw [streamLoop, dif_pos hcond]
      simp only [mkJobs, runWorkersM]
      rcases hpb : processBlock env st ⟨idx, x.take S, hashFn (x.take S)⟩ with ⟨res1, st'⟩
      rcases res1 with e | bid
      · exact ⟨rfl, rfl, rfl, fun results hcon => Except.noConfusion hcon⟩
      · obtain ⟨ihres, ihstore, ihread, ihtotal⟩ := ih st' (idx + 1)
        refine ⟨?_, ?_, ?_, ?_⟩
        · show Except.map (fun rs => (idx, bid) :: rs)
              (streamLoop env hashFn S st' (idx + 1) (x.drop S) .eof).res =
            Except.map (fun rs => (idx, bid) :: rs)
              (runWorkersM env st' (mkJobs hashFn (idx + 1) (chunksOf S (x.drop S)))).1
          rw [ihres]
        · show (streamLoop env hashFn S st' (idx + 1) (x.drop S) .eof).store =
            (runWorkersM env st' (mkJobs hashFn (idx + 1) (chunksOf S (x.drop S)))).2
          exact ihstore
        · exact ihread
        · intro results hres
          have hres2 : Except.map (fun rs => (idx, bid) :: rs)
              (streamLoop env hashFn S st' (idx + 1) (x.drop S) .eof).res = .ok results := hres
          rcases hok : (streamLoop env hashFn S st' (idx + 1) (x.drop S) .eof).res
            with e2 | results2
          · rw [hok] at hres2
            exact Except.noConfusion hres2
          · have htot := ihtotal results2 hok
            show S + (streamLoop env hashFn S st' (idx + 1) (x.drop S) .eof).total =
              sumLens (x.take S :: chunksOf S (x.drop S))
            rw [htot]
            simp only [sumLens, List.map_cons, List.sum_cons, List.length_take]
            rw [show min S x.length = S from by omega]


theorem streamLoop_fail_readErr (env : Env) (hashFn : Bytes → Bytes) (S : Nat)
    (hS : 0 < S) (m : String) (data : Bytes) : ∀ (st : Store) (idx : Nat)
    (results : List (Nat × Nat)),
    (streamLoop env hashFn S st idx data (.fail m)).res = .ok results →
    (streamLoop env hashFn S st idx data (.fail m)).readErr = some (readErrMsg m) := by
  refine chunksOf.induct S (fun data => ∀ st idx results,
    (streamLoop env hashFn S st idx data (.fail m)).res = .ok results →
    (streamLoop env hashFn S st idx data (.fail m)).readErr = some (readErrMsg m))
    ?_ ?_ data
  · intro x h st idx results _
    rcases h with h | h
    · omega
    · subst h
      rw [streamLoop, dif_neg (by simp; omega)]
  · intro x h ih st idx results
    have hS0 : S ≠ 0 := by tauto
    have hx : x ≠ [] := by tauto
    have hxpos : 0 < x.length := List.length_pos.mpr hx
    rcases Nat.lt_or_ge x.length S with hlt | hge
    · have hcond : ¬(0 < S ∧ S ≤ x.length) := by omega
      rw [streamLoop, dif_neg hcond]
      rcases x with _ | ⟨b, bs⟩
      · exact absurd rfl hx
      · intro hres
        rcases hpb : processBlock env st ⟨idx, b :: bs, hashFn (b :: bs)⟩ with ⟨res1, st'⟩
        simp only [hpb] at hres ⊢
        rcases res1 with e | bid
        · exact Except.noConfusion hres
        · rfl
    · have hcond : 0 < S ∧ S ≤ x.length := ⟨hS, hge⟩
      rw [streamLoop, dif_pos hcond]
      intro hres
      rcases hpb : processBlock env st ⟨idx, x.take S, hashFn (x.take S)⟩ with ⟨res1, st'⟩
      rcases res1 with e | bid
      · simp only [hpb] at hres
        exact Except.noConfusion hres
      · simp only [hpb] at hres ⊢
        rcases hok : (streamLoop env hashFn S st' (idx + 1) (x.drop S) (.fail m)).res
          with e2 | results2
        · rw [hok] at hres
          exact Except.noConfusion hres
        · exact ih st' (idx + 1) results2 hok

theorem ProcessStreamingM_eq_of_res_error (env : Env) (hashFn : Bytes → Bytes)
    (S : Nat) (st : Store) (bs : ByteStream) (e : String)
    (h : (streamLoop env hashFn S st 0 bs.data bs.ending).res = .error e) :
    ProcessStreamingM env hashFn S st bs =
      (.error e, (streamLoop env hashFn S st 0 bs.data bs.ending).store) := by
  simp only [ProcessStreamingM]
  rw [h]

theorem ProcessStreamingM_eq_of_res_ok (env : Env) (hashFn : Bytes → Bytes)
    (S : Nat) (st : Store) (bs : ByteStream) (results : List (Nat × Nat))
    (hres : (streamLoop env hashFn S st 0 bs.data bs.ending).res = .ok results)
    (hread : (streamLoop env hashFn S st 0 bs.data bs.ending).readErr = none) :
    ProcessStreamingM env hashFn S st bs =
      (.ok (gatherBlockIds results, (streamLoop env hashFn S st 0 bs.data bs.ending).total),
       (streamLoop env hashFn S st 0 bs.data bs.ending).store) := by
  simp only [ProcessStreamingM]
  rw [hres, hread]

theorem ProcessStreamingM_eq_of_readErr (env : Env) (hashFn : Bytes → Bytes)
    (S : Nat) (st : Store) (bs : ByteStream) (results : List (Nat × Nat)) (m : String)
    (hres : (streamLoop env hashFn S st 0 bs.data bs.ending).res = .ok results)
    (hread : (streamLoop env hashFn S st 0 bs.data bs.ending).readErr = some m) :
    ProcessStreamingM env hashFn S st bs =
      (.error m, (streamLoop env hashFn S st 0 bs.data bs.ending).store) := by
  simp only [ProcessStreamingM]
  rw [hres, hread]

theorem ProcessBatchM_fail (env : Env) (hashFn : Bytes → Bytes) (S : Nat)
    (st : Store) (data : Bytes) (m : String) :
    ProcessBatchM env hashFn S st ⟨data, .fail m⟩ =
      (.error ("Processor.splitStream: " ++ readErrMsg m), st) := by
  simp only [ProcessBatchM, splitStreamM]

theorem ProcessBatchM_eof_of_error (env : Env) (hashFn : Bytes → Bytes) (S : Nat)
    (st : Store) (data : Bytes) (e : String)
    (h : (runWorkersM env st (mkJobs hashFn 0 (chunksOf S data))).1 = .error e) :
    ProcessBatchM env hashFn S st ⟨data, .eof⟩ =
      (.error e, (runWorkersM env st (mkJobs hashFn 0 (chunksOf S data))).2) := by
  have hpair : runWorkersM env st (mkJobs hashFn 0 (chunksOf S data)) =
      (.error e, (runWorkersM env st (mkJobs hashFn 0 (chunksOf S data))).2) := by
    conv_lhs => rw [show runWorkersM env st (mkJobs hashFn 0 (chunksOf S data)) =
      ((runWorkersM env st (mkJobs hashFn 0 (chunksOf S data))).1,
        (runWorkersM env st (mkJobs hashFn 0 (chunksOf S data))).2) from rfl]
    rw [h]
  simp only [ProcessBatchM, splitStreamM]
  rw [hpair]

theorem ProcessBatchM_eof_of_ok (env : Env) (hashFn : Bytes → Bytes) (S : Nat)
    (st : Store) (data : Bytes) (results : List (Nat × Nat))
    (h : (runWorkersM env st (mkJobs hashFn 0 (chunksOf S data))).1 = .ok results) :
    ProcessBatchM env hashFn S st ⟨data, .eof⟩ =
      (.ok (gatherBlockIds results, sumLens (chunksOf S data)),
       (runWorkersM env st (mkJobs hashFn 0 (chunksOf S data))).2) := by
  have hpair : runWorkersM env st (mkJobs hashFn 0 (chunksOf S data)) =
      (.ok results, (runWorkersM env st (mkJobs hashFn 0 (chunksOf S data))).2) := by
    conv_lhs => rw [show runWorkersM env st (mkJobs hashFn 0 (chunksOf S data)) =
      ((runWorkersM env st (mkJobs hashFn 0 (chunksOf S data))).1,
        (runWorkersM env st (mkJobs hashFn 0 (chunksOf S data))).2) from rfl]
    rw [h]
  simp only [ProcessBatchM, splitStreamM]
  rw [hpair]

/-- The two Process variants agree entirely on a cleanly-ending stream. -/
theorem ProcessStreaming_eq_Batch_eof (env : Env) (hashFn : Bytes → Bytes) (S : Nat)
    (st : Store) (data : Bytes) (hS : 0 < S) :
    ProcessStreamingM env hashFn S st ⟨data, .eof⟩ =
      ProcessBatchM env hashFn S st ⟨data, .eof⟩ := by
  obtain ⟨hres, hstore, hread, htotal⟩ := streamLoop_eof_eq_runWorkers env hashFn S hS data st 0
  rcases hok : (streamLoop env hashFn S st 0 data .eof).res with e | results
  · rw [hok] at hres
    rw [ProcessStreamingM_eq_of_res_error env hashFn S st ⟨data, .eof⟩ e hok,
      ProcessBatchM_eof_of_error env hashFn S st data e hres.symm, hstore]
  · rw [hok] at hres
    rw [ProcessStreamingM_eq_of_res_ok env hashFn S st ⟨data, .eof⟩ results hok hread,
      ProcessBatchM_eof_of_ok env hashFn S st data results hres.symm, hstore,
      htotal results hok]

/-- C10: the streaming Process variant and the batch (splitStream + runWorkers)
variant are equivalent: for every input stream and the same metadata/object
store behaviour, the two return values have the same success payload (same
ordered block-id list and same total byte count) and succeed or fail together;
on a cleanly-ending stream the two runs are identical, final store included. -/
theorem claim_C10_variants_equivalent (env : Env) (hashFn : Bytes → Bytes) (S : Nat)
    (st : Store) (bs : ByteStream) (hS : 0 < S) :
    (ProcessStreamingM env hashFn S st bs).1.toOption =
      (ProcessBatchM env hashFn S st bs).1.toOption ∧
    (bs.ending = .eof →
      ProcessStreamingM env hashFn S st bs = ProcessBatchM env hashFn S st bs) := by
  rcases bs with ⟨data, ending⟩
  cases ending with
  | eof =>
    have heq := ProcessStreaming_eq_Batch_eof env hashFn S st data hS
    exact ⟨by rw [heq], fun _ => heq⟩
  | fail m =>
    refine ⟨?_, fun hcon => StreamEnd.noConfusion hcon⟩
    rw [ProcessBatchM_fail]
    rcases hok : (streamLoop env hashFn S st 0 data (.fail m)).res with e | results
    · rw [ProcessStreamingM_eq_of_res_error env hashFn S st ⟨data, .fail m⟩ e hok]
      rfl
    · have hread := streamLoop_fail_readErr env hashFn S hS m data st 0 results hok
      rw [ProcessStreamingM_eq_of_readErr env hashFn S st ⟨data, .fail m⟩ results
        (readErrMsg m) hok hread]
      rfl

/-- Witness for C10 at a concrete clean three-byte stream with block size 2. -/
theorem claim_C10_variants_equivalent_witness :
    0 < 2 ∧
    ((ProcessStreamingM noFailEnv id 2 raceStore0 ⟨[1, 2, 3], .eof⟩).1.toOption =
      (ProcessBatchM noFailEnv id 2 raceStore0 ⟨[1, 2, 3], .eof⟩).1.toOption ∧
    ((⟨[1, 2, 3], .eof⟩ : ByteStream).ending = .eof →
      ProcessStreamingM noFailEnv id 2 raceStore0 ⟨[1, 2, 3], .eof⟩ =
        ProcessBatchM noFailEnv id 2 raceStore0 ⟨[1, 2, 3], .eof⟩)) :=
  ⟨by decide,
    claim_C10_variants_equivalent noFailEnv id 2 raceStore0 ⟨[1, 2, 3], .eof⟩ (by decide)⟩

/-! ## Reference-count and content bookkeeping for processBlock -/

theorem lookupObj_insertObj (o : List (Bytes × Bytes)) (k v key : Bytes) :
    lookupObj (insertObj o k v) key = if key = k then some v else lookupObj o key := by
  induction o with
  | nil =>
    simp only [insertObj, lookupObj]
    by_cases h : key = k
    · simp [h]
    · rw [if_neg (fun hcon : k = key => h hcon.symm), if_neg h]
  | cons kv rest ih =>
    rcases kv with ⟨k', v'⟩
    simp only [insertObj]
    by_cases h1 : k' = k <;> by_cases h2 : key = k <;>
      simp_all [lookupObj, eq_comm]

theorem FindByHash_none_iff (st : Store) (h : Bytes) :
    FindByHash st h = none ↔ ∀ r ∈ st.blocks, r.sha256Hash ≠ h := by
  rw [FindByHash, List.find?_eq_none]
  constructor
  · intro hh r hr
    simpa using hh r hr
  · intro hh r hr
    simpa using hh r hr

theorem FindByHash_some_spec (st : Store) (h : Bytes) (ex : BlockRow)
    (hfind : FindByHash st h = some ex) : ex ∈ st.blocks ∧ ex.sha256Hash = h := by
  refine ⟨List.mem_of_find?_eq_some hfind, ?_⟩
  simpa using List.find?_some hfind

theorem filter_id_eq_singleton (l : List BlockRow) (hnd : (l.map (·.id)).Nodup)
    (r : BlockRow) (hr : r ∈ l) :
    l.filter (fun q => q.id == r.id) = [r] := by
  induction l with
  | nil => exact absurd hr (List.not_mem_nil r)
  | cons a rest ih =>
    simp only [List.map_cons, List.nodup_cons] at hnd
    rcases List.mem_cons.mp hr with hr1 | hr1
    · subst hr1
      rw [List.filter_cons_of_pos (by simp)]
      have hnone : rest.filter (fun q => q.id == r.id) = [] := by
        rw [List.filter_eq_nil_iff]
        intro q hq
        simp only [beq_iff_eq]
        intro hcon
        exact hnd.1 (hcon ▸ List.mem_map_of_mem (·.id) hq)
      rw [hnone]
    · have hne : a.id ≠ r.id := by
        intro hcon
        exact hnd.1 (hcon ▸ List.mem_map_of_mem (·.id) hr1)
      rw [List.filter_cons_of_neg (by simpa using hne)]
      exact ih hnd.2 hr1

theorem refCountOf_eq_of_mem (st : Store) (hnd : (st.blocks.map (·.id)).Nodup)
    (r : BlockRow) (hr : r ∈ st.blocks) : refCountOf st r.id = r.refCount := by
  rw [refCountOf, filter_id_eq_singleton st.blocks hnd r hr]
  simp

theorem refCountOf_eq_zero (st : Store) (bid : Nat)
    (h : ∀ r ∈ st.blocks, r.id ≠ bid) : refCountOf st bid = 0 := by
  rw [refCountOf]
  have hnil : st.blocks.filter (fun r => r.id == bid) = [] := by
    rw [List.filter_eq_nil_iff]
    intro q hq
    simpa using h q hq
  rw [hnil]
  rfl

theorem IncrementRefCount_map_id (st : Store) (bid : Nat) :
    (IncrementRefCount st bid).blocks.map (·.id) = st.blocks.map (·.id) := by
  rw [IncrementRefCount]
  simp only [List.map_map]
  refine List.map_congr_left ?_
  intro r _
  by_cases hc : r.id = bid <;> simp [hc]

theorem IncrementRefCount_map_hash (st : Store) (bid : Nat) :
    (IncrementRefCount st bid).blocks.map (·.sha256Hash) = st.blocks.map (·.sha256Hash) := by
  rw [IncrementRefCount]
  simp only [List.map_map]
  refine List.map_congr_left ?_
  intro r _
  by_cases hc : r.id = bid <;> simp [hc]

theorem refCountOf_inc_ne (st : Store) (bid b : Nat) (hne : b ≠ bid) :
    refCountOf (IncrementRefCount st bid) b = refCountOf st b := by
  rw [refCountOf, refCountOf, IncrementRefCount]
  simp only []
  induction st.blocks with
  | nil => rfl
  | cons a rest ih =>
    by_cases hc : a.id = bid
    · rw [List.map_cons, if_pos hc]
      rw [List.filter_cons_of_neg (by simp [hc]; omega)]
      rw [List.filter_cons_of_neg (by simp [hc]; omega)]
      exact ih
    · rw [List.map_cons, if_neg hc]
      by_cases hb : a.id = b
      · rw [List.filter_cons_of_pos (by simpa using hb), List.filter_cons_of_pos (by simpa using hb)]
        simp only [List.map_cons, List.sum_cons]
        rw [ih]
      · rw [List.filter_cons_of_neg (by simpa using hb), List.filter_cons_of_neg (by simpa using hb)]
        exact ih

theorem IncrementRefCount_mem_bump (st : Store) (ex : BlockRow) (hex : ex ∈ st.blocks) :
    ({ ex with refCount := ex.refCount + 1 } : BlockRow) ∈
      (IncrementRefCount st ex.id).blocks := by
  rw [IncrementRefCount]
  have hmap := List.mem_map_of_mem
    (fun r => if r.id = ex.id then { r with refCount := r.refCount + 1 } else r) hex
  simpa using hmap

theorem refCountOf_inc_self (st : Store) (hnd : (st.blocks.map (·.id)).Nodup)
    (ex : BlockRow) (hex : ex ∈ st.blocks) :
    refCountOf (IncrementRefCount st ex.id) ex.id = refCountOf st ex.id + 1 := by
  have hnd' : ((IncrementRefCount st ex.id).blocks.map (·.id)).Nodup := by
    rw [IncrementRefCount_map_id]
    exact hnd
  have h1 := refCountOf_eq_of_mem (IncrementRefCount st ex.id) hnd' _
    (IncrementRefCount_mem_bump st ex hex)
  have h2 := refCountOf_eq_of_mem st hnd ex hex
  rw [h2]
  simpa using h1

theorem processBlock_ok_spec (env : Env) (hashFn : Bytes → Bytes) (st : Store)
    (job : blockJob) (hjob : job.hash = hashFn job.data) (bid : Nat) (st' : Store)
    (h : processBlock env st job = (.ok bid, st')) (hwf : WF st) :
    WF st' ∧
    (∀ r ∈ st.blocks, ∃ r' ∈ st'.blocks,
        r'.id = r.id ∧ r'.sha256Hash = r.sha256Hash ∧ r'.s3Key = r.s3Key) ∧
    (∀ b : Nat, refCountOf st' b = refCountOf st b + (if b = bid then 1 else 0)) ∧
    (∃ r' ∈ st'.blocks, r'.id = bid ∧ r'.sha256Hash = job.hash) ∧
    (CInv hashFn st → CInv hashFn st') := by
  obtain ⟨hlt, hndid, hndhash⟩ := hwf
  rw [processBlock] at h
  rcases hff : env.findFail job.hash
  case true =>
    rw [hff] at h
    simp at h
  rw [hff] at h
  simp only [Bool.false_eq_true, if_false] at h
  rcases hfind : FindByHash st job.hash with _ | ex
  · -- dedup miss: upload then create
    simp only [hfind] at h
    rw [processBlockMiss] at h
    rcases hpf : env.putFail job.hash
    case true =>
      rw [hpf] at h
      simp at h
    rw [hpf] at h
    simp only [Bool.false_eq_true, if_false] at h
    rw [BlockCreate] at h
    rcases hcf : env.createFail job.hash
    case true =>
      rw [hcf] at h
      simp at h
    rw [hcf] at h
    simp only [Bool.false_eq_true, if_false] at h
    have hnone := (FindByHash_none_iff st job.hash).mp hfind
    have hnodup : ((PutObject st job.hash job.data).blocks.any
        (fun r => r.sha256Hash == job.hash)) = false := by
      rw [List.any_eq_false]
      intro r hr
      simpa using hnone r hr
    rw [hnodup] at h
    simp only [Bool.false_eq_true, if_false] at h
    have hbid : st.nextBlockId = bid := by
      have h1 := congrArg Prod.fst h
      simpa using h1
    have hst : st' = { PutObject st job.hash job.data with
        blocks := st.blocks ++ [⟨st.nextBlockId, job.hash, job.hash, job.data.length, 1⟩],
        nextBlockId := st.nextBlockId + 1 } := by
      have h2 := congrArg Prod.snd h
      simpa using h2.symm
    subst hbid
    subst hst
    refine ⟨⟨?_, ?_, ?_⟩, ?_, ?_, ?_, ?_⟩
    · intro r hr
      rcases List.mem_append.mp hr with hr1 | hr1
      · have := hlt r hr1
        simp only []
        omega
      · rcases List.mem_singleton.mp hr1 with rfl
        simp
    · simp only [List.map_append, List.map_cons, List.map_nil]
      rw [List.nodup_append]
      refine ⟨hndid, List.nodup_singleton _, ?_⟩
      intro a ha hb
      rcases List.mem_singleton.mp hb with rfl
      obtain ⟨r, hr, hrid⟩ := List.mem_map.mp ha
      have := hlt r hr
      omega
    · simp only [List.map_append, List.map_cons, List.map_nil]
      rw [List.nodup_append]
      refine ⟨hndhash, List.nodup_singleton _, ?_⟩
      intro a ha hb
      rcases List.mem_singleton.mp hb with rfl
      obtain ⟨r, hr, hrh⟩ := List.mem_map.mp ha
      exact hnone r hr hrh
    · intro r hr
      exact ⟨r, List.mem_append_left _ hr, rfl, rfl, rfl⟩
    · intro b
      by_cases hb : b = st.nextBlockId
      · rw [if_pos hb]
        have hz : refCountOf st b = 0 :=
          refCountOf_eq_zero st b (fun r hr => by have := hlt r hr; omega)
        rw [hz]
        rw [refCountOf]
        simp only [List.filter_append]
        rw [List.filter_cons_of_pos (by simp [hb]), List.filter_nil]
        have hnil : st.blocks.filter (fun r => r.id == b) = [] := by
          rw [List.filter_eq_nil_iff]
          intro q hq
          have := hlt q hq
          simp only [beq_iff_eq]
          omega
        rw [hnil]
        simp
      · rw [if_neg hb]
        rw [refCountOf, refCountOf]
        simp only [List.filter_append]
        rw [List.filter_cons_of_neg (by simp; omega), List.filter_nil]
        simp
    · refine ⟨⟨st.nextBlockId, job.hash, job.hash, job.data.length, 1⟩, ?_, rfl, rfl⟩
      exact List.mem_append_right _ (List.mem_singleton.mpr rfl)
    · intro hc r hr
      rcases List.mem_append.mp hr with hr1 | hr1
      · obtain ⟨hkey, bs, hbs, hhb⟩ := hc r hr1
        refine ⟨hkey, bs, ?_, hhb⟩
        show lookupObj (insertObj st.objects job.hash job.data) r.s3Key = some bs
        rw [lookupObj_insertObj]
        rw [if_neg (by rw [hkey]; exact hnone r hr1)]
        exact hbs
      · rcases List.mem_singleton.mp hr1 with rfl
        refine ⟨rfl, job.data, ?_, hjob.symm⟩
        show lookupObj (insertObj st.objects job.hash job.data) job.hash = some job.data
        rw [lookupObj_insertObj, if_pos rfl]
  · -- dedup hit: increment the existing row's ref count
    simp only [hfind] at h
    obtain ⟨hexmem, hexhash⟩ := FindByHash_some_spec st job.hash ex hfind
    rcases hif : env.incFail ex.id
    case true =>
      rw [hif] at h
      simp at h
    rw [hif] at h
    simp only [Bool.false_eq_true, if_false] at h
    have hbid : ex.id = bid := by
      have h1 := congrArg Prod.fst h
      simpa using h1
    have hst : st' = IncrementRefCount st ex.id := by
      have h2 := congrArg Prod.snd h
      exact h2.symm
    subst hbid
    subst hst
    refine ⟨⟨?_, ?_, ?_⟩, ?_, ?_, ?_, ?_⟩
    · intro r hr
      rw [IncrementRefCount] at hr
      obtain ⟨q, hq, hqr⟩ := List.mem_map.mp hr
      have hlt2 := hlt q hq
      subst hqr
      show (if q.id = ex.id then { q with refCount := q.refCount + 1 } else q).id <
        (IncrementRefCount st ex.id).nextBlockId
      by_cases hqc : q.id = ex.id <;> simp [hqc, IncrementRefCount] <;> omega
    · rw [IncrementRefCount_map_id]
      exact hndid
    · rw [IncrementRefCount_map_hash]
      exact hndhash
    · intro r hr
      refine ⟨if r.id = ex.id then { r with refCount := r.refCount + 1 } else r, ?_, ?_⟩
      · rw [IncrementRefCount]
        exact List.mem_map_of_mem _ hr
      · by_cases hrc : r.id = ex.id <;> simp [hrc]
    · intro b
      by_cases hb : b = ex.id
      · subst hb
        rw [if_pos rfl]
        exact refCountOf_inc_self st hndid ex hexmem
      · rw [if_neg hb, refCountOf_inc_ne st ex.id b hb]
        simp
    · refine ⟨{ ex with refCount := ex.refCount + 1 }, IncrementRefCount_mem_bump st ex hexmem, ?_, ?_⟩
      · rfl
      · simpa using hexhash
    · intro hc r hr
      rw [IncrementRefCount] at hr
      obtain ⟨q, hq, hqr⟩ := List.mem_map.mp hr
      obtain ⟨hkey, bs, hbs, hhb⟩ := hc q hq
      subst hqr
      by_cases hqc : q.id = ex.id <;> simp only [hqc, if_pos, if_neg, if_true, if_false] <;>
        exact ⟨hkey, bs, hbs, hhb⟩

theorem streamLoop_ok_spec (env : Env) (hashFn : Bytes → Bytes) (S : Nat) (hS : 0 < S)
    (data : Bytes) : ∀ (st : Store) (idx : Nat) (ending : StreamEnd)
    (results : List (Nat × Nat)),
    (streamLoop env hashFn S st idx data ending).res = .ok results → WF st →
    (WF (streamLoop env hashFn S st idx data ending).store ∧
     (∀ r ∈ st.blocks, ∃ r' ∈ (streamLoop env hashFn S st idx data ending).store.blocks,
        r'.id = r.id ∧ r'.sha256Hash = r.sha256Hash ∧ r'.s3Key = r.s3Key) ∧
     (∀ b : Nat, refCountOf (streamLoop env hashFn S st idx data ending).store b =
        refCountOf st b + ((results.map Prod.snd).count b : Int)) ∧
     results.map Prod.fst = List.range' idx (chunksOf S data).length ∧
     List.Forall₂ (fun (p : Nat × Nat) (c : Bytes) =>
        ∃ r' ∈ (streamLoop env hashFn S st idx data ending).store.blocks,
          r'.id = p.2 ∧ r'.sha256Hash = hashFn c) results (chunksOf S data) ∧
     (CInv hashFn st → CInv hashFn (streamLoop env hashFn S st idx data ending).store)) := by
  refine chunksOf.induct S (fun data => ∀ st idx ending results,
    (streamLoop env hashFn S st idx data ending).res = .ok results → WF st →
    (WF (streamLoop env hashFn S st idx data ending).store ∧
     (∀ r ∈ st.blocks, ∃ r' ∈ (streamLoop env hashFn S st idx data ending).store.blocks,
        r'.id = r.id ∧ r'.sha256Hash = r.sha256Hash ∧ r'.s3Key = r.s3Key) ∧
     (∀ b : Nat, refCountOf (streamLoop env hashFn S st idx data ending).store b =
        refCountOf st b + ((results.map Prod.snd).count b : Int)) ∧
     results.map Prod.fst = List.range' idx (chunksOf S data).length ∧
     List.Forall₂ (fun (p : Nat × Nat) (c : Bytes) =>
        ∃ r' ∈ (streamLoop env hashFn S st idx data ending).store.blocks,
          r'.id = p.2 ∧ r'.sha256Hash = hashFn c) results (chunksOf S data) ∧
     (CInv hashFn st → CInv hashFn (streamLoop env hashFn S st idx data ending).store)))
    ?_ ?_ data
  · intro x h st idx ending results hres hwf
    rcases h with h | h
    · omega
    · subst h
      rw [chunksOf_nil]
      rw [streamLoop, dif_neg (by simp; omega)] at hres ⊢
      cases ending with
      | eof =>
        have hr : results = [] := by
          simpa using hres.symm
        subst hr
        exact ⟨hwf, fun r hr => ⟨r, hr, rfl, rfl, rfl⟩, by simp, by simp, List.Forall₂.nil,
          fun hc => hc⟩
      | fail m =>
        have hr : results = [] := by
          simpa using hres.symm
        subst hr
        exact ⟨hwf, fun r hr => ⟨r, hr, rfl, rfl, rfl⟩, by simp, by simp, List.Forall₂.nil,
          fun hc => hc⟩
  · intro x h ih st idx ending results hres hwf
    have hS0 : S ≠ 0 := by tauto
    have hx : x ≠ [] := by tauto
    have hxpos : 0 < x.length := List.length_pos.mpr hx
    rcases Nat.lt_or_ge x.length S with hlt | hge
    · -- final short block
      have htake : x.take S = x := List.take_of_length_le (by omega)
      have hdrop : x.drop S = [] := List.drop_eq_nil_of_le (by omega)
      have hchunks : chunksOf S x = [x] := by
        rw [chunksOf_cons S x hS0 hx, htake, hdrop, chunksOf_nil]
      have hcond : ¬(0 < S ∧ S ≤ x.length) := by omega
      rw [streamLoop, dif_neg hcond] at hres ⊢
      rcases x with _ | ⟨b, bs⟩
      · exact absurd rfl hx
      · rcases hpb : processBlock env st ⟨idx, b :: bs, hashFn (b :: bs)⟩ with ⟨res1, st'⟩
        rcases res1 with e | bid
        · cases ending with
          | eof =>
            simp only [hpb] at hres
            exact absurd hres (by simp)
          | fail m =>
            simp only [hpb] at hres
            exact absurd hres (by simp)
        · obtain ⟨hwf1, hpres1, hcount1, hrow1, hcinv1⟩ :=
            processBlock_ok_spec env hashFn st ⟨idx, b :: bs, hashFn (b :: bs)⟩ rfl bid st'
              hpb hwf
          cases ending with
          | eof =>
            simp only [hpb] at hres ⊢
            have hr : results = [(idx, bid)] := by
              simpa using hres.symm
            subst hr
            rw [hchunks]
            refine ⟨hwf1, hpres1, ?_, ?_, ?_, hcinv1⟩
            · intro c
              have := hcount1 c
              rw [this]
              by_cases hc : c = bid <;> simp [hc]
            · simp [List.range']
            · exact List.Forall₂.cons hrow1 List.Forall₂.nil
          | fail m =>
            simp only [hpb] at hres ⊢
            have hr : results = [(idx, bid)] := by
              simpa using hres.symm
            subst hr
            rw [hchunks]
            refine ⟨hwf1, hpres1, ?_, ?_, ?_, hcinv1⟩
            · intro c
              have := hcount1 c
              rw [this]
              by_cases hc : c = bid <;> simp [hc]
            · simp [List.range']
            · exact List.Forall₂.cons hrow1 List.Forall₂.nil
    · -- full chunk, then the rest
      have hcond : 0 < S ∧ S ≤ x.length := ⟨hS, hge⟩
      have hchunks : chunksOf S x = x.take S :: chunksOf S (x.drop S) :=
        chunksOf_cons S x hS0 hx
      rw [streamLoop, dif_pos hcond] at hres ⊢
      rcases hpb : processBlock env st ⟨idx, x.take S, hashFn (x.take S)⟩ with ⟨res1, st'⟩
      rcases res1 with e | bid
      · simp only [hpb] at hres
        exact absurd hres (by simp)
      · obtain ⟨hwf1, hpres1, hcount1, hrow1, hcinv1⟩ :=
          processBlock_ok_spec env hashFn st ⟨idx, x.take S, hashFn (x.take S)⟩ rfl bid st'
            hpb hwf
        simp only [hpb] at hres ⊢
        rcases hok : (streamLoop env hashFn S st' (idx + 1) (x.drop S) ending).res
          with e2 | results2
        · rw [hok] at hres
          exact absurd hres (by simp [Except.map])
        · rw [hok] at hres
          have hr : results = (idx, bid) :: results2 := by
            simpa [Except.map] using hres.symm
          subst hr
          obtain ⟨hwf2, hpres2, hcount2, hidx2, hfa2, hcinv2⟩ :=
            ih st' (idx + 1) ending results2 hok hwf1
          rw [hchunks]
          refine ⟨hwf2, ?_, ?_, ?_, ?_, fun hc => hcinv2 (hcinv1 hc)⟩
          · intro r hr
            obtain ⟨r1, hr1, hid1, hh1, hk1⟩ := hpres1 r hr
            obtain ⟨r2, hr2, hid2, hh2, hk2⟩ := hpres2 r1 hr1
            exact ⟨r2, hr2, hid2.trans hid1, hh2.trans hh1, hk2.trans hk1⟩
          · intro c
            have h2 := hcount2 c
            have h1 := hcount1 c
            rw [h2, h1]
            simp only [List.map_cons, List.count_cons]
            by_cases hc : c = bid
            · subst hc
              simp
              push_cast
              ring
            · rw [if_neg hc]
              rw [show ((bid == c) = false) from by simpa using fun hcon : bid = c => hc hcon.symm]
              push_cast
              ring
          · simp only [List.map_cons, List.length_cons]
            rw [hidx2]
            rfl
          · refine List.Forall₂.cons ?_ hfa2
            obtain ⟨r1, hr1, hid1, hh1⟩ := hrow1
            obtain ⟨r2, hr2, hid2, hh2, hk2⟩ := hpres2 r1 hr1
            exact ⟨r2, hr2, hid2.trans hid1, hh2.trans hh1⟩

/-! ## The successful upload pipeline and the ref-count invariant (C3) -/

theorem gatherBlockIds_inorder (rs : List (Nat × Nat))
    (hidx : rs.map Prod.fst = List.range' 0 rs.length) :
    gatherBlockIds rs = rs.map Prod.snd := by
  have hperm : (rs.map Prod.fst).Perm (List.range rs.length) := by
    rw [hidx, List.range_eq_range']
  have hspec := gatherBlockIds_spec rs hperm
  apply List.ext_getElem?
  intro i
  by_cases hi : i < rs.length
  · have hmem : rs[i] ∈ rs := List.getElem_mem hi
    have hfst : rs[i].1 = i := by
      have h1 : (rs.map Prod.fst)[i]? = some (rs[i].1) := by
        rw [List.getElem?_map, List.getElem?_eq_getElem hi]
        rfl
      have hi2 : i < (List.range' 0 rs.length).length := by
        simpa using hi
      have h2 : (List.range' 0 rs.length)[i]? = some i := by
        rw [List.getElem?_eq_getElem hi2]
        simp [List.getElem_range']
      rw [hidx] at h1
      exact Option.some.inj (h1.symm.trans h2)
    have hval := hspec rs[i] hmem
    rw [hfst] at hval
    rw [hval]
    rw [List.getElem?_map]
    rw [List.getElem?_eq_getElem hi]
    rfl
  · rw [List.getElem?_eq_none, List.getElem?_eq_none]
    · simp only [List.length_map]
      omega
    · rw [gatherBlockIds_length]
      omega

theorem linkRows_count (fid : Nat) (ids : List Nat) (b : Nat) :
    ∀ i : Nat, ((linkRows fid i ids).filter (fun fb => fb.blockId == b)).length =
      ids.count b := by
  induction ids with
  | nil => intro i; rfl
  | cons a rest ih =>
    intro i
    simp only [linkRows]
    by_cases hab : a = b
    · rw [List.filter_cons_of_pos (by simpa using hab)]
      simp only [List.length_cons, ih (i + 1)]
      rw [List.count_cons, if_pos (by simpa using hab)]
    · rw [List.filter_cons_of_neg (by simpa using hab)]
      rw [ih (i + 1), List.count_cons,
        if_neg (by simpa using hab)]
      omega

theorem refCountOf_eq_fbCount (st : Store) (hnd : (st.blocks.map (·.id)).Nodup)
    (hinv : RefInv st)
    (hfk : ∀ fb ∈ st.fileBlocks, ∃ r ∈ st.blocks, r.id = fb.blockId) (b : Nat) :
    refCountOf st b = (fbCount st b : Int) := by
  by_cases hex : ∃ r ∈ st.blocks, r.id = b
  · obtain ⟨r, hr, hrb⟩ := hex
    subst hrb
    rw [refCountOf_eq_of_mem st hnd r hr]
    exact hinv r hr
  · rw [refCountOf_eq_zero st b (fun r hr hcon => hex ⟨r, hr, hcon⟩)]
    have hfb0 : fbCount st b = 0 := by
      rw [fbCount, List.length_eq_zero]
      rw [List.filter_eq_nil_iff]
      intro fb hfb
      simp only [beq_iff_eq]
      intro hcon
      obtain ⟨r, hr, hrid⟩ := hfk fb hfb
      exact hex ⟨r, hr, hcon ▸ hrid⟩
    rw [hfb0]
    rfl

theorem ProcessStreamingM_ok_inv (env : Env) (hashFn : Bytes → Bytes) (S : Nat)
    (st : Store) (bs : ByteStream) (ids : List Nat) (total : Nat) (st1 : Store)
    (h : ProcessStreamingM env hashFn S st bs = (.ok (ids, total), st1)) :
    ∃ results, (streamLoop env hashFn S st 0 bs.data bs.ending).res = .ok results ∧
      (streamLoop env hashFn S st 0 bs.data bs.ending).readErr = none ∧
      ids = gatherBlockIds results ∧
      total = (streamLoop env hashFn S st 0 bs.data bs.ending).total ∧
      st1 = (streamLoop env hashFn S st 0 bs.data bs.ending).store := by
  rcases hres : (streamLoop env hashFn S st 0 bs.data bs.ending).res with e | results
  · rw [ProcessStreamingM_eq_of_res_error env hashFn S st bs e hres] at h
    exact absurd (congrArg Prod.fst h) (by simp)
  · rcases hread : (streamLoop env hashFn S st 0 bs.data bs.ending).readErr with _ | m
    · rw [ProcessStreamingM_eq_of_res_ok env hashFn S st bs results hres hread] at h
      have h1 := congrArg Prod.fst h
      have h2 := congrArg Prod.snd h
      simp only [] at h1 h2
      have h3 : gatherBlockIds results = ids ∧
          (streamLoop env hashFn S st 0 bs.data bs.ending).total = total := by
        have := Except.ok.inj h1
        exact ⟨congrArg Prod.fst this, congrArg Prod.snd this⟩
      exact ⟨results, rfl, rfl, h3.1.symm, h3.2.symm, h2.symm⟩
    · rw [ProcessStreamingM_eq_of_readErr env hashFn S st bs results m hres hread] at h
      exact absurd (congrArg Prod.fst h) (by simp)

theorem upload_commit_refinv (st st1 : Store) (ids : List Nat) (uid total : Nat)
    (name mime : String)
    (hnd1 : (st1.blocks.map (·.id)).Nodup)
    (hfbeq : st1.fileBlocks = st.fileBlocks)
    (hcnt : ∀ b : Nat, refCountOf st1 b = refCountOf st b + (ids.count b : Int))
    (hagg : ∀ b : Nat, refCountOf st b = (fbCount st b : Int)) :
    RefInv (LinkBlocks { st1 with
      files := st1.files ++ [⟨st1.nextFileId, uid, name, mime, total⟩],
      nextFileId := st1.nextFileId + 1 } st1.nextFileId ids) ∧
    (∀ b : Nat, refCountOf (LinkBlocks { st1 with
      files := st1.files ++ [⟨st1.nextFileId, uid, name, mime, total⟩],
      nextFileId := st1.nextFileId + 1 } st1.nextFileId ids) b =
      refCountOf st b + (ids.count b : Int)) := by
  have hrc1 : ∀ b : Nat, refCountOf (LinkBlocks { st1 with
      files := st1.files ++ [⟨st1.nextFileId, uid, name, mime, total⟩],
      nextFileId := st1.nextFileId + 1 } st1.nextFileId ids) b = refCountOf st1 b :=
    fun b => rfl
  have hfbc : ∀ b : Nat, fbCount (LinkBlocks { st1 with
      files := st1.files ++ [⟨st1.nextFileId, uid, name, mime, total⟩],
      nextFileId := st1.nextFileId + 1 } st1.nextFileId ids) b =
      fbCount st b + ids.count b := by
    intro b
    show ((st1.fileBlocks ++ linkRows st1.nextFileId 0 ids).filter
      (fun fb => fb.blockId == b)).length = fbCount st b + ids.count b
    rw [List.filter_append, List.length_append, linkRows_count st1.nextFileId ids b 0, hfbeq]
    rfl
  constructor
  · intro r hr
    have hmem1 : r ∈ st1.blocks := hr
    have h1 : refCountOf st1 r.id = r.refCount := refCountOf_eq_of_mem st1 hnd1 r hmem1
    have h2 := hcnt r.id
    have h3 := hagg r.id
    rw [hfbc r.id]
    rw [h1] at h2
    rw [h2, h3]
    push_cast
    ring
  · intro b
    rw [hrc1 b]
    exact hcnt b

/-- C3: a successful upload preserves the ref-count invariant.  Starting from a
well-formed quiescent store in which every block's ref_count equals the number
of file_blocks rows referencing it (and file_blocks respects its foreign key),
the upload pipeline (Process, then File create, then LinkBlocks) answers 201
and leaves a store that satisfies the invariant again; moreover every block
id's ref_count grows by exactly its number of occurrences in the ordered
block-id list — a newly created block starting at 1 with one link, each dedup
hit adding exactly one increment and one link, and a file with k identical
blocks raising that block's ref_count by k. -/
theorem claim_C3_refcount_invariant (env : Env) (hashFn : Bytes → Bytes) (S : Nat)
    (st : Store) (uid : Nat) (name mime : String) (bs : ByteStream)
    (hS : 0 < S) (hwf : WF st) (hinv : RefInv st)
    (hfk : ∀ fb ∈ st.fileBlocks, ∃ r ∈ st.blocks, r.id = fb.blockId)
    (ids : List Nat) (total : Nat) (st1 : Store)
    (hrun : ProcessStreamingM env hashFn S st bs = (.ok (ids, total), st1)) :
    (uploadHandler env hashFn S st uid name mime bs).1 = (201, "created") ∧
    RefInv (uploadHandler env hashFn S st uid name mime bs).2 ∧
    (∀ b : Nat, refCountOf (uploadHandler env hashFn S st uid name mime bs).2 b =
      refCountOf st b + (ids.count b : Int)) := by
  obtain ⟨results, hres, hread, hids, htotal, hst1⟩ :=
    ProcessStreamingM_ok_inv env hashFn S st bs ids total st1 hrun
  obtain ⟨hwf1, hpres1, hcount1, hidx1, hfa1, hcinv1⟩ :=
    streamLoop_ok_spec env hashFn S hS bs.data st 0 bs.ending results hres hwf
  have htables := streamLoop_preserves_tables env hashFn S st 0 bs.data bs.ending
  -- the ordered id list is the in-order projection of the results
  have hlen : results.length = (chunksOf S bs.data).length := by
    have := congrArg List.length hidx1
    simpa using this
  have hgather : gatherBlockIds results = results.map Prod.snd := by
    refine gatherBlockIds_inorder results ?_
    rw [hidx1, hlen]
  -- reduce the handler with the successful pipeline run
  have hup : uploadHandler env hashFn S st uid name mime bs =
      ((201, "created"),
        LinkBlocks { st1 with
            files := st1.files ++ [⟨st1.nextFileId, uid, name, mime, total⟩],
            nextFileId := st1.nextFileId + 1 }
          st1.nextFileId ids) := by
    rw [uploadHandler, hrun]
    simp [FileCreate]
  rw [hup]
  have hnd1 : (st1.blocks.map (·.id)).Nodup := by
    rw [hst1]
    exact hwf1.2.1
  have hfbeq : st1.fileBlocks = st.fileBlocks := by
    rw [hst1]
    exact htables.2.1
  have hcnt : ∀ b : Nat, refCountOf st1 b = refCountOf st b + (ids.count b : Int) := by
    intro b
    rw [hst1, hids, hgather]
    exact hcount1 b
  have hagg : ∀ b : Nat, refCountOf st b = (fbCount st b : Int) :=
    refCountOf_eq_fbCount st hwf.2.1 hinv hfk
  obtain ⟨hri, hrc⟩ := upload_commit_refinv st st1 ids uid total name mime hnd1 hfbeq hcnt hagg
  exact ⟨rfl, hri, hrc⟩

/-- Witness for C3: uploading six bytes of identical blocks (three copies of
the same 2-byte block) into the empty store succeeds with block-id list
[1, 1, 1]; the invariant hypotheses hold and the theorem applies. -/
theorem claim_C3_refcount_invariant_witness :
    (0 < 2 ∧ WF raceStore0 ∧ RefInv raceStore0 ∧
      (∀ fb ∈ raceStore0.fileBlocks, ∃ r ∈ raceStore0.blocks, r.id = fb.blockId) ∧
      ProcessStreamingM noFailEnv id 2 raceStore0 ⟨[7, 7, 7, 7, 7, 7], .eof⟩ =
        (.ok ([1, 1, 1], 6), dedupStore1)) ∧
    ((uploadHandler noFailEnv id 2 raceStore0 1 "a" "m" ⟨[7, 7, 7, 7, 7, 7], .eof⟩).1 =
        (201, "created") ∧
      RefInv (uploadHandler noFailEnv id 2 raceStore0 1 "a" "m" ⟨[7, 7, 7, 7, 7, 7], .eof⟩).2 ∧
      (∀ b : Nat,
        refCountOf (uploadHandler noFailEnv id 2 raceStore0 1 "a" "m"
            ⟨[7, 7, 7, 7, 7, 7], .eof⟩).2 b =
          refCountOf raceStore0 b + (([1, 1, 1] : List Nat).count b : Int))) :=
  ⟨⟨by decide, by simp [WF, raceStore0], by simp [RefInv, raceStore0], by simp [raceStore0],
      by simp [ProcessStreamingM, streamLoop, processBlock, processBlockMiss, FindByHash,
          IncrementRefCount, PutObject, BlockCreate, insertObj, gatherBlockIds, raceStore0,
          noFailEnv, dedupStore1, Except.map]
         decide⟩,
    claim_C3_refcount_invariant noFailEnv id 2 raceStore0 1 "a" "m" ⟨[7, 7, 7, 7, 7, 7], .eof⟩
      (by decide) (by simp [WF, raceStore0]) (by simp [RefInv, raceStore0]) (by simp [raceStore0])
      [1, 1, 1] 6 dedupStore1
      (by simp [ProcessStreamingM, streamLoop, processBlock, processBlockMiss, FindByHash,
          IncrementRefCount, PutObject, BlockCreate, insertObj, gatherBlockIds, raceStore0,
          noFailEnv, dedupStore1, Except.map]
          decide)⟩

/-! ## Round-trip fidelity (C1) -/

theorem find?_id_eq (l : List BlockRow) (hnd : (l.map (·.id)).Nodup)
    (r : BlockRow) (hr : r ∈ l) :
    l.find? (fun q => q.id == r.id) = some r := by
  induction l with
  | nil => cases hr
  | cons a rest ih =>
    simp only [List.map_cons, List.nodup_cons] at hnd
    rcases List.mem_cons.mp hr with hr1 | hr1
    · subst hr1
      rw [List.find?_cons_of_pos _ (by simp)]
    · have hne : a.id ≠ r.id := fun hcon => hnd.1 (hcon ▸ List.mem_map_of_mem (·.id) hr1)
      rw [List.find?_cons_of_neg _ (by simpa using hne)]
      exact ih hnd.2 hr1

theorem blocksToStream_of_rows (hashFn : Bytes → Bytes)
    (hinj : Function.Injective hashFn) (st1 : Store)
    (hnd : (st1.blocks.map (·.id)).Nodup) (hc : CInv hashFn st1)
    (results : List (Nat × Nat)) (cs : List Bytes)
    (hfa : List.Forall₂ (fun (p : Nat × Nat) (c : Bytes) =>
      ∃ r ∈ st1.blocks, r.id = p.2 ∧ r.sha256Hash = hashFn c) results cs) :
    BlocksToStream st1.objects (FindByIDs st1 (results.map Prod.snd)) = .ok cs.flatten := by
  induction hfa with
  | nil => rfl
  | @cons p c results' cs' hpc hfa' ih =>
    obtain ⟨r, hr, hrid, hrh⟩ := hpc
    have hfind : st1.blocks.find? (fun q => q.id == p.2) = some r := by
      rw [← hrid]
      exact find?_id_eq st1.blocks hnd r hr
    obtain ⟨hkey, bs, hbs, hhb⟩ := hc r hr
    have hbc : bs = c := hinj (by rw [hhb, hrh])
    rw [FindByIDs] at ih ⊢
    simp only [List.map_cons, List.filterMap_cons, hfind]
    simp only [BlocksToStream, hbs, ih, hbc]
    rw [List.flatten_cons]

/-- C1: round-trip fidelity.  For every input of length at least 1, splitting
it through the streaming Processor (on a well-formed, content-consistent
store, with a collision-free digest) and then reassembling the file's blocks
in index order with BlocksToStream (rows resolved by FindByIDs on the ordered
block-id list) yields exactly the original bytes, octet for octet. -/
theorem claim_C1_roundtrip (env : Env) (hashFn : Bytes → Bytes) (S : Nat)
    (st : Store) (input : Bytes) (ids : List Nat) (total : Nat) (st1 : Store)
    (hS : 0 < S) (hinj : Function.Injective hashFn) (hwf : WF st)
    (hcinv : CInv hashFn st) (hlen : 1 ≤ input.length)
    (hrun : ProcessStreamingM env hashFn S st ⟨input, .eof⟩ = (.ok (ids, total), st1)) :
    BlocksToStream st1.objects (FindByIDs st1 ids) = .ok input := by
  obtain ⟨results, hres, hread, hids, htot, hst1⟩ :=
    ProcessStreamingM_ok_inv env hashFn S st ⟨input, .eof⟩ ids total st1 hrun
  obtain ⟨hwf1, hpres1, hcount1, hidx1, hfa1, hcinv1⟩ :=
    streamLoop_ok_spec env hashFn S hS input st 0 .eof results hres hwf
  have hnd1 : (st1.blocks.map (·.id)).Nodup := by
    rw [hst1]
    exact hwf1.2.1
  have hc1 : CInv hashFn st1 := by
    rw [hst1]
    exact hcinv1 hcinv
  have hlen2 : results.length = (chunksOf S input).length := by
    have := congrArg List.length hidx1
    simpa using this
  have hgather : gatherBlockIds results = results.map Prod.snd := by
    refine gatherBlockIds_inorder results ?_
    rw [hidx1, hlen2]
  have hfa1' : List.Forall₂ (fun (p : Nat × Nat) (c : Bytes) =>
      ∃ r ∈ st1.blocks, r.id = p.2 ∧ r.sha256Hash = hashFn c)
      results (chunksOf S input) := by
    rw [hst1]
    exact hfa1
  have hmain := blocksToStream_of_rows hashFn hinj st1 hnd1 hc1 results
    (chunksOf S input) hfa1'
  rw [chunksOf_flatten S hS input] at hmain
  rw [hids, hgather]
  exact hmain

/-- Witness for C1: the three bytes [1, 2, 3], split at block size 2 into the
empty store, assemble back to [1, 2, 3]. -/
theorem claim_C1_roundtrip_witness :
    (0 < 2 ∧ WF raceStore0 ∧ CInv id raceStore0 ∧
      1 ≤ ([1, 2, 3] : Bytes).length ∧
      ProcessStreamingM noFailEnv id 2 raceStore0 ⟨[1, 2, 3], .eof⟩ =
        (.ok ([1, 2], 3), rtStore1)) ∧
    BlocksToStream rtStore1.objects (FindByIDs rtStore1 [1, 2]) = .ok [1, 2, 3] :=
  ⟨⟨by decide, by simp [WF, raceStore0], by simp [CInv, raceStore0], by decide,
      by simp [ProcessStreamingM, streamLoop, processBlock, processBlockMiss, FindByHash,
          IncrementRefCount, PutObject, BlockCreate, insertObj, gatherBlockIds, raceStore0,
          noFailEnv, rtStore1, Except.map]⟩,
    claim_C1_roundtrip noFailEnv id 2 raceStore0 [1, 2, 3] [1, 2] 3 rtStore1
      (by decide) (fun a b h => h) (by simp [WF, raceStore0]) (by simp [CInv, raceStore0])
      (by decide)
      (by simp [ProcessStreamingM, streamLoop, processBlock, processBlockMiss, FindByHash,
          IncrementRefCount, PutObject, BlockCreate, insertObj, gatherBlockIds, raceStore0,
          noFailEnv, rtStore1, Except.map])⟩

end RanBox
